import Mathlib

/-!
# dep-tree: formal model of the dependency-graph core

A shallow embedding of the dep-tree module-dependency scanner
(`src/graph.js`, `src/parsers/javascript.js`, `src/parsers/python.js`):

* a model of POSIX-style absolute paths as segment lists, with the
  `path.resolve` / `path.relative` / `path.extname` operations the code uses;
* the two lexical scanners (comment stripping plus a faithful backtracking
  matcher for the exact regular expressions in the source);
* specifier classification (local / builtin / external);
* `resolveLocal` and the breadth-first `buildGraph` traversal, written as a
  fuel-indexed loop whose fuel is proved sufficient.

Theorems about the claims of the specification follow the definitions.
-/

namespace DepTree

/-! ## Paths

An absolute path is modelled as its list of segments (`[]` is the
filesystem root `/`).  `node:path` operations normalise paths, so the model
works with normalised segment lists throughout; `applySegs` performs the
normalisation that `path.resolve` applies to a string being resolved
against a base directory (skipping empty and `.` segments and popping one
segment for `..`, clamped at the root exactly as Node does). -/

/-- An absolute, normalised path: its list of segments. -/
abbrev Path := List String

/-- Result of `path.relative(from, to)` on two absolute paths: go up
`ups` directories from `from`, then descend through `segs`.
(Node renders this as the string `"../" * ups ++ segs.join "/"`.) -/
structure RelPath where
  ups : Nat
  segs : List String
deriving DecidableEq, Repr

/-- Split a character list at every occurrence of `sep`
(the semantics of JavaScript's `String.prototype.split` with a
single-character separator). -/
def splitChar (sep : Char) : List Char → List (List Char)
  | [] => [[]]
  | c :: rest =>
    if c = sep then [] :: splitChar sep rest
    else
      match splitChar sep rest with
      | [] => [[c]]
      | p :: ps => (c :: p) :: ps

/-- Split a raw path string at `/` characters (the segment decomposition
`path.resolve` performs on its string argument). -/
def splitSlash (l : List Char) : List (List Char) := splitChar '/' l

/-- Fold raw segments onto a base directory the way `path.resolve`
normalises a path: `""` and `"."` are skipped, `".."` pops one segment
(clamped at the root), anything else is pushed. -/
def applySegs (base : Path) : List String → Path
  | [] => base
  | seg :: rest =>
    if seg = "" ∨ seg = "." then applySegs base rest
    else if seg = ".." then applySegs base.dropLast rest
    else applySegs (base ++ [seg]) rest

/-- `path.resolve(base, s)` for a base directory and a raw string `s`. -/
def pathResolveStr (base : Path) (s : String) : Path :=
  let parts := (splitSlash s.toList).map (fun l => String.mk l)
  if s.toList.head? = some '/' then applySegs [] parts else applySegs base parts

/-- Length of the common segment prefix of two paths. -/
def commonPrefixLen : List String → List String → Nat
  | a :: as, b :: bs => if a = b then commonPrefixLen as bs + 1 else 0
  | _, _ => 0

/-- `path.relative(from, to)` on two absolute normalised paths. -/
def pathRelative (frm tgt : Path) : RelPath :=
  let c := commonPrefixLen frm tgt
  ⟨frm.length - c, tgt.drop c⟩

/-- `path.resolve(base, r)` where `r` is the string rendering of a
`RelPath` (`".."` repeated `ups` times, then the segments). -/
def pathResolveRel (base : Path) (r : RelPath) : Path :=
  applySegs base (List.replicate r.ups ".." ++ r.segs)

/-- A path segment as produced by a real filesystem: non-empty, not one of
the special names `.` / `..`, and containing no separator. -/
def ValidSeg (s : String) : Prop :=
  s ≠ "" ∧ s ≠ "." ∧ s ≠ ".." ∧ '/' ∉ s.toList

instance : DecidablePred ValidSeg := fun s => by
  unfold ValidSeg; infer_instance

/-- All segments of a path are valid filesystem segment names. -/
def ValidPath (p : Path) : Prop := ∀ s ∈ p, ValidSeg s

instance : DecidablePred ValidPath := fun p => by
  unfold ValidPath; infer_instance

/-! ## `path.extname` and language detection -/

/-- Index of the last occurrence of `c`, if any. -/
def lastIdxOf (c : Char) : List Char → Option Nat
  | [] => none
  | d :: rest =>
    match lastIdxOf c rest with
    | some i => some (i + 1)
    | none => if d = c then some 0 else none

/-- `path.extname` on a single path segment (the basename): the suffix
from the last `.`, or `""` when there is no dot, the only dot leads the
name (hidden files), or the name consists solely of dots (`.`,`..`). -/
def extname (s : String) : String :=
  if s.toList.all (· = '.') then ""
  else
    match lastIdxOf '.' s.toList with
    | none => ""
    | some 0 => ""
    | some i => String.mk (s.toList.drop i)

/-- The two supported languages. -/
inductive Lang where
  | javascript
  | python
deriving DecidableEq, Repr

/-- `EXTENSIONS.javascript` from the source, in source order. -/
def jsExtensions : List String :=
  [".js", ".mjs", ".cjs", ".jsx", ".ts", ".tsx", ".mts", ".cts"]

/-- `EXTENSIONS.python` from the source. -/
def pyExtensions : List String := [".py"]

/-- The extension list of a language. -/
def extensionsOf : Lang → List String
  | .javascript => jsExtensions
  | .python => pyExtensions

/-- `ext.toLowerCase()`: lower-case a string character by character
(the extensions compared against are ASCII). -/
def toLowerStr (s : String) : String := String.mk (s.toList.map Char.toLower)

/-- `detectLanguage`: match the lower-cased extension of the basename
against the per-language extension lists (JavaScript first, as in the
iteration order of `EXTENSIONS`). -/
def detectLanguage (p : Path) : Option Lang :=
  let ext := toLowerStr (extname ((p.getLast?).getD ""))
  if ext ∈ jsExtensions then some .javascript
  else if ext ∈ pyExtensions then some .python
  else none

/-! ## Lexical scanners

The two parsers (`src/parsers/javascript.js`, `src/parsers/python.js`)
first strip comments with a hand-written character scan and then extract
specifiers with JavaScript regular expressions.  The comment strippers are
transcribed below; the regular expressions are embedded as abstract syntax
trees over character classes and run by a backtracking matcher (`mtch`)
with the ECMAScript semantics the source relies on: ordered alternation,
greedy / lazy quantifiers over character classes, multiline `^`, word
boundary, and a single capture group per pattern. -/

/-- The backquote character (delimiter of template literals). -/
def backquoteChar : Char := Char.ofNat 96

/-- The closing-brace character (part of the `(?:^|;|\x7d)` anchor). -/
def rbraceChar : Char := Char.ofNat 125

/-- Scanning modes of the JavaScript `stripComments` loop: plain code,
a `//` comment, a `/* */` comment, or a string/template literal opened
with quote `q`. -/
inductive JsScanMode where
  | normal
  | lineC
  | blockC
  | str (q : Char)

/-- The JavaScript `stripComments` character scan, written as a mode
machine over the input (the modes correspond to the positions of the
source's single pass): comments are dropped (a line comment keeps its
terminating newline), string and template-literal bodies are preserved
verbatim, and a backslash inside a literal always carries the following
character along. -/
def stripJsM : JsScanMode → List Char → List Char
  | .normal, [] => []
  | .normal, [c] =>
    if c = backquoteChar ∨ c = '"' ∨ c = '\'' then [c]
    else [c]
  | .normal, c :: d :: rest =>
    if c = '/' ∧ d = '/' then stripJsM .lineC rest
    else if c = '/' ∧ d = '*' then stripJsM .blockC rest
    else if c = backquoteChar ∨ c = '"' ∨ c = '\'' then
      c :: stripJsM (.str c) (d :: rest)
    else c :: stripJsM .normal (d :: rest)
  | .lineC, [] => []
  | .lineC, c :: rest =>
    if c = '\n' then c :: stripJsM .normal rest else stripJsM .lineC rest
  | .blockC, [] => []
  | .blockC, [_] => []
  | .blockC, c :: d :: rest =>
    if c = '*' ∧ d = '/' then stripJsM .normal rest
    else stripJsM .blockC (d :: rest)
  | .str _, [] => []
  | .str _, [c] => [c]
  | .str q, c :: d :: rest =>
    if c = q then c :: stripJsM .normal (d :: rest)
    else if c = '\\' then c :: d :: stripJsM (.str q) rest
    else c :: stripJsM (.str q) (d :: rest)

/-- `stripComments` of the JavaScript parser: remove `//` and `/* */`
comments, preserving string and template-literal contents verbatim. -/
def stripCommentsJs (s : List Char) : List Char := stripJsM .normal s

/-- Scanning modes of the Python `stripComments` loop: plain code, a
`#` comment, a regular string with quote `q`, or a triple-quoted string
with quote `q`. -/
inductive PyScanMode where
  | normal
  | comment
  | str (q : Char)
  | triple (q : Char)

/-- The Python `stripComments` character scan as a mode machine:
triple-quoted strings are replaced by a `""` placeholder, `#` comments
are dropped (keeping the newline), regular string bodies are preserved.
The source's regular-string loop lacks the bounds check of the
JavaScript version: when a backslash is the final character,
`result += source[i++]` reads past the end and JavaScript appends the
string `"undefined"`; the model reproduces this. -/
def stripPyM : PyScanMode → List Char → List Char
  | .normal, [] => []
  | .normal, [c] =>
    if c = '#' then [] else [c]
  | .normal, [c, d] =>
    if c = '#' then stripPyM .comment [d]
    else if c = '"' ∨ c = '\'' then c :: stripPyM (.str c) [d]
    else c :: stripPyM .normal [d]
  | .normal, c :: d :: e :: rest =>
    if (c = '"' ∨ c = '\'') ∧ d = c ∧ e = c then
      '"' :: '"' :: stripPyM (.triple c) rest
    else if c = '#' then stripPyM .comment (d :: e :: rest)
    else if c = '"' ∨ c = '\'' then c :: stripPyM (.str c) (d :: e :: rest)
    else c :: stripPyM .normal (d :: e :: rest)
  | .comment, [] => []
  | .comment, c :: rest =>
    if c = '\n' then c :: stripPyM .normal rest else stripPyM .comment rest
  | .str _, [] => []
  | .str q, [c] =>
    if c = q then [c]
    else if c = '\\' then '\\' :: "undefined".toList
    else [c]
  | .str q, c :: d :: rest =>
    if c = q then c :: stripPyM .normal (d :: rest)
    else if c = '\\' then c :: d :: stripPyM (.str q) rest
    else c :: stripPyM (.str q) (d :: rest)
  | .triple _, [] => []
  | .triple _, [_] => []
  | .triple _, [_, _] => []
  | .triple q, c :: d :: e :: rest =>
    if c = q ∧ d = q ∧ e = q then stripPyM .normal rest
    else stripPyM (.triple q) (d :: e :: rest)

/-- `stripComments` of the Python parser. -/
def stripCommentsPy (s : List Char) : List Char := stripPyM .normal s

/-! ## A backtracking matcher for the source's regular expressions

Every pattern in the source quantifies only over single-character
classes, has ordered alternation, at most one optional group, and exactly
one capture group, so the abstract syntax below suffices.  The matcher is
written in continuation-passing style and implements ECMAScript
backtracking: greedy quantifiers try the longest run of their character
class first, lazy ones the shortest, alternation and `(...)?` prefer the
left / present branch, and the first overall success wins. -/

/-- Regular-expression abstract syntax, specialised to the patterns used
by the source: quantifiers range over character classes only. -/
inductive RE where
  | lit : List Char → RE
  | cls : (Char → Bool) → RE
  | starG : (Char → Bool) → RE
  | starL : (Char → Bool) → RE
  | plusG : (Char → Bool) → RE
  | repG : Nat → (Char → Bool) → RE
  | seq : RE → RE → RE
  | alt : RE → RE → RE
  | opt : RE → RE
  | bol : RE
  | wb : RE
  | grp : RE → RE

/-- Chain a list of expressions into nested sequencing. -/
def reSeq : List RE → RE
  | [] => .lit []
  | [r] => r
  | r :: rest => .seq r (reSeq rest)

/-- `\w`: ASCII word characters. -/
def isWordChar (c : Char) : Bool := c.isAlphanum || c = '_'

/-- `\s` of ECMAScript: space, tab, line feed, carriage return, vertical
tab, form feed, no-break space and the BOM (exotic Unicode space
separators are omitted; no input in this development contains them). -/
def isSpaceJS (c : Char) : Bool :=
  c = ' ' || c = '\t' || c = '\n' || c = '\r' ||
  c = Char.ofNat 11 || c = Char.ofNat 12 || c = Char.ofNat 160 || c = Char.ofNat 0xfeff

/-- ECMAScript line terminators, after which a multiline `^` matches. -/
def isLineTerm (c : Char) : Bool :=
  c = '\n' || c = '\r' || c = Char.ofNat 0x2028 || c = Char.ofNat 0x2029

/-- Maximal run of characters satisfying `p` starting at position `i`. -/
def runLen (s : List Char) (p : Char → Bool) (i : Nat) : Nat :=
  ((s.drop i).takeWhile p).length

/-- The single capture group's span, when set. -/
abbrev Caps := Option (Nat × Nat)

/-- A match result: end position and capture span. -/
abbrev MRes := Nat × Caps

/-- The backtracking matcher.  `mtch s re i cap k` tries to match `re` at
position `i` of `s` with current capture state `cap`, calling the
continuation `k` on every candidate way of matching (in ECMAScript
preference order) until one succeeds. -/
def mtch (s : List Char) : RE → Nat → Caps → (Nat → Caps → Option MRes) → Option MRes
  | .lit l, i, cap, k => if l.isPrefixOf (s.drop i) then k (i + l.length) cap else none
  | .cls p, i, cap, k =>
    match s[i]? with
    | some c => if p c then k (i + 1) cap else none
    | none => none
  | .starG p, i, cap, k =>
    ((List.range (runLen s p i + 1)).reverse).findSome? (fun j => k (i + j) cap)
  | .starL p, i, cap, k =>
    (List.range (runLen s p i + 1)).findSome? (fun j => k (i + j) cap)
  | .plusG p, i, cap, k =>
    ((List.range' 1 (runLen s p i)).reverse).findSome? (fun j => k (i + j) cap)
  | .repG n p, i, cap, k =>
    ((List.range (min (runLen s p i) n + 1)).reverse).findSome? (fun j => k (i + j) cap)
  | .seq a b, i, cap, k => mtch s a i cap (fun j c => mtch s b j c k)
  | .alt a b, i, cap, k =>
    match mtch s a i cap k with
    | some r => some r
    | none => mtch s b i cap k
  | .opt a, i, cap, k =>
    match mtch s a i cap k with
    | some r => some r
    | none => k i cap
  | .bol, i, cap, k =>
    if i = 0 then k i cap
    else
      match s[i - 1]? with
      | some c => if isLineTerm c then k i cap else none
      | none => none
  | .wb, i, cap, k =>
    let before := if i = 0 then false else
      match s[i - 1]? with
      | some c => isWordChar c
      | none => false
    let after :=
      match s[i]? with
      | some c => isWordChar c
      | none => false
    if before ≠ after then k i cap else none
  | .grp a, i, cap, k => mtch s a i cap (fun j _ => k j (some (i, j)))

/-- Try to match `re` exactly at position `i`. -/
def matchAt (re : RE) (s : List Char) (i : Nat) : Option MRes :=
  mtch s re i none (fun j c => some (j, c))

/-- Leftmost match at or after `li`: returns
`(start, end, captureStart, captureEnd)`.  All patterns in the source
contain their capture group on every successful path, so a missing
capture (impossible here) is read as an empty span. -/
def findFrom (re : RE) (s : List Char) (li : Nat) : Option (Nat × Nat × Nat × Nat) :=
  (List.range' li (s.length + 1 - li)).findSome? (fun st =>
    match matchAt re s st with
    | some (e, cap) =>
      let c := cap.getD (e, e)
      some (st, e, c.1, c.2)
    | none => none)

/-- `regex.exec` driven in a loop with the `g` flag: collect the capture
of every successive match, resuming at each match's end (`lastIndex`).
Every pattern in the source contains a nonempty literal, so each match
consumes at least one character and `s.length + 1` rounds of fuel are
enough. -/
def execAllAux (re : RE) (s : List Char) : Nat → Nat → List String
  | 0, _ => []
  | fuel + 1, li =>
    match findFrom re s li with
    | none => []
    | some (_, e, a, b) => String.mk ((s.drop a).take (b - a)) :: execAllAux re s fuel e

/-- All captures of the global regex `re` over `s`, in match order. -/
def execAll (re : RE) (s : List Char) : List String :=
  execAllAux re s (s.length + 1) 0

/-! ## The JavaScript parser (`src/parsers/javascript.js`) -/

/-- `['"]`. -/
def isQuote (c : Char) : Bool := c = '\'' || c = '"'

/-- `[^'"]`. -/
def notQuote (c : Char) : Bool := !(c = '\'' || c = '"')

/-- `[\s\S]`. -/
def anyChar (_ : Char) : Bool := true

/-- `[^.\w]`. -/
def notDotWord (c : Char) : Bool := !(c = '.' || isWordChar c)

/-- Characters that keep the JavaScript comment stripper in plain-code
mode: anything that cannot open a comment, a string, or a template
literal. -/
def plainJs (c : Char) : Bool :=
  !(c = '/' || c = '"' || c = '\'' || c = backquoteChar)

/-- Characters that keep the Python comment stripper in plain-code mode:
anything that cannot open a comment or a string. -/
def plainPy (c : Char) : Bool :=
  !(c = '#' || c = '"' || c = '\'')

/-- `/(?:^|;|\x7d)\s*import\s+(?:[\s\S]*?\s+from\s+)?['"]([^'"]+)['"]/gm` -/
def reEsImport : RE :=
  reSeq [.alt .bol (.alt (.cls (fun c => c = ';')) (.cls (fun c => c = rbraceChar))),
         .starG isSpaceJS, .lit "import".toList, .plusG isSpaceJS,
         .opt (reSeq [.starL anyChar, .plusG isSpaceJS, .lit "from".toList,
                      .plusG isSpaceJS]),
         .cls isQuote, .grp (.plusG notQuote), .cls isQuote]

/-- `/(?:^|;|\x7d)\s*export\s+(?:[\s\S]*?\s+from\s+)?['"]([^'"]+)['"]/gm` -/
def reEsExport : RE :=
  reSeq [.alt .bol (.alt (.cls (fun c => c = ';')) (.cls (fun c => c = rbraceChar))),
         .starG isSpaceJS, .lit "export".toList, .plusG isSpaceJS,
         .opt (reSeq [.starL anyChar, .plusG isSpaceJS, .lit "from".toList,
                      .plusG isSpaceJS]),
         .cls isQuote, .grp (.plusG notQuote), .cls isQuote]

/-- `/(?:^|[^.\w])require\s*\(\s*['"]([^'"]+)['"]\s*\)/gm` -/
def reCjsRequire : RE :=
  reSeq [.alt .bol (.cls notDotWord), .lit "require".toList, .starG isSpaceJS,
         .cls (fun c => c = '('), .starG isSpaceJS, .cls isQuote,
         .grp (.plusG notQuote), .cls isQuote, .starG isSpaceJS,
         .cls (fun c => c = ')')]

/-- `/\bimport\s*\(\s*['"]([^'"]+)['"]\s*\)/gm` -/
def reDynImport : RE :=
  reSeq [.wb, .lit "import".toList, .starG isSpaceJS, .cls (fun c => c = '('),
         .starG isSpaceJS, .cls isQuote, .grp (.plusG notQuote), .cls isQuote,
         .starG isSpaceJS, .cls (fun c => c = ')')]

/-- `deps.add`: a JavaScript `Set` keeps first-insertion order and drops
duplicates. -/
def addUnique (l : List String) (x : String) : List String :=
  if x ∈ l then l else l ++ [x]

/-- `parse` of the JavaScript parser: strip comments, run the four
regexes in source order, collect captures into an insertion-ordered set. -/
def parseJs (source : String) : List String :=
  let stripped := stripCommentsJs source.toList
  let ms := execAll reEsImport stripped ++ execAll reEsExport stripped ++
    execAll reCjsRequire stripped ++ execAll reDynImport stripped
  ms.foldl addUnique []

/-! ## The Python parser (`src/parsers/python.js`) -/

/-- `[ \t]`. -/
def isSpaceTab (c : Char) : Bool := c = ' ' || c = '\t'

/-- `[\w.]`. -/
def isWordDot (c : Char) : Bool := isWordChar c || c = '.'

/-- `[\w., \t]`. -/
def isWordDotCommaSp (c : Char) : Bool :=
  isWordChar c || c = '.' || c = ',' || c = ' ' || c = '\t'

/-- `/^[ \t]*from\s+(\.{0,3}[\w.]*)\s+import\s/gm` -/
def reFromPy : RE :=
  reSeq [.bol, .starG isSpaceTab, .lit "from".toList, .plusG isSpaceJS,
         .grp (.seq (.repG 3 (fun c => c = '.')) (.starG isWordDot)),
         .plusG isSpaceJS, .lit "import".toList, .cls isSpaceJS]

/-- `/^[ \t]*import\s+([\w.][\w., \t]*)/gm` -/
def reImportPy : RE :=
  reSeq [.bol, .starG isSpaceTab, .lit "import".toList, .plusG isSpaceJS,
         .grp (.seq (.cls isWordDot) (.starG isWordDotCommaSp))]

/-- `/\s+as\s+/`, used by `split` to strip `as`-aliases. -/
def reAsSplit : RE :=
  reSeq [.plusG isSpaceJS, .lit "as".toList, .plusG isSpaceJS]

/-- JavaScript `String.prototype.trim` (whitespace as in `\s`). -/
def trimChars (l : List Char) : List Char :=
  ((l.dropWhile isSpaceJS).reverse.dropWhile isSpaceJS).reverse

/-- `m.split(/\s+as\s+/)[0]`: everything before the leftmost `as`-splitter
match, or the whole string when there is none. -/
def beforeAsSplit (l : List Char) : List Char :=
  match findFrom reAsSplit l 0 with
  | some (st, _, _, _) => l.take st
  | none => l

/-- `parse` of the Python parser: strip comments and docstrings, collect
`from X import` modules, then comma-separated `import` lists with
`as`-aliases stripped and names validated against `/^[\w.]+$/`. -/
def parsePy (source : String) : List String :=
  let stripped := stripCommentsPy source.toList
  let fromDeps := (execAll reFromPy stripped).foldl (fun acc m =>
    let mod := String.mk (trimChars m.toList)
    if mod ≠ "" then addUnique acc mod else acc) []
  (execAll reImportPy stripped).foldl (fun acc m =>
    (splitChar ',' m.toList).foldl (fun acc mm =>
      let name := String.mk (trimChars (beforeAsSplit (trimChars mm)))
      if name ≠ "" ∧ name.toList.all isWordDot then addUnique acc name
      else acc) acc) fromDeps

/-! ## Specifier classification -/

/-- A specifier's category (the strings `'local'` / `'external'` /
`'builtin'` in the source). -/
inductive DepType where
  | localDep
  | externalDep
  | builtinDep
deriving DecidableEq, Repr

/-- `String.prototype.startsWith`. -/
def startsWithStr (s pre : String) : Bool := pre.toList.isPrefixOf s.toList

/-- `s.split(sep)[0]`: the text before the first occurrence of `sep`. -/
def firstSegment (sep : Char) (s : String) : String :=
  String.mk (s.toList.takeWhile (fun c => c ≠ sep))

/-- `NODE_BUILTINS` from the source. -/
def NODE_BUILTINS : List String :=
  ["assert", "buffer", "child_process", "cluster", "console", "constants",
   "crypto", "dgram", "dns", "domain", "events", "fs", "http", "http2",
   "https", "module", "net", "os", "path", "perf_hooks", "process",
   "punycode", "querystring", "readline", "repl", "stream", "string_decoder",
   "sys", "timers", "tls", "tty", "url", "util", "v8", "vm", "wasi",
   "worker_threads", "zlib", "test", "node:test"]

/-- `isNodeBuiltin`: a `node:` prefix always counts, otherwise the leading
path segment is looked up in `NODE_BUILTINS`. -/
def isNodeBuiltin (s : String) : Bool :=
  if startsWithStr s "node:" then true
  else NODE_BUILTINS.contains (firstSegment '/' s)

/-- `classify` of the JavaScript parser. -/
def classifyJs (specifier : String) : DepType :=
  if startsWithStr specifier "." || startsWithStr specifier "/" then .localDep
  else if isNodeBuiltin specifier then .builtinDep
  else .externalDep

/-- `PYTHON_STDLIB` from the source. -/
def PYTHON_STDLIB : List String :=
  ["abc", "argparse", "ast", "asyncio", "base64", "bisect", "builtins",
   "calendar", "cmath", "codecs", "collections", "concurrent", "configparser",
   "contextlib", "copy", "csv", "ctypes", "dataclasses", "datetime",
   "decimal", "difflib", "email", "enum", "errno", "fcntl", "fileinput",
   "fnmatch", "fractions", "ftplib", "functools", "gc", "getpass", "glob",
   "gzip", "hashlib", "heapq", "hmac", "html", "http", "importlib",
   "inspect", "io", "itertools", "json", "keyword", "linecache", "locale",
   "logging", "lzma", "math", "mimetypes", "multiprocessing", "numbers",
   "operator", "os", "pathlib", "pdb", "pickle", "pkgutil", "platform",
   "pprint", "profile", "queue", "random", "re", "readline", "reprlib",
   "secrets", "select", "shelve", "shlex", "shutil", "signal", "site",
   "smtplib", "socket", "sqlite3", "ssl", "stat", "statistics", "string",
   "struct", "subprocess", "sys", "syslog", "tempfile", "textwrap",
   "threading", "time", "timeit", "tkinter", "tomllib", "trace", "traceback",
   "types", "typing", "unittest", "urllib", "uuid", "venv", "warnings",
   "weakref", "webbrowser", "xml", "xmlrpc", "zipfile", "zipimport", "zlib",
   "_thread"]

/-- `classify` of the Python parser. -/
def classifyPy (s : String) : DepType :=
  if startsWithStr s "." then .localDep
  else if PYTHON_STDLIB.contains (firstSegment '.' s) then .builtinDep
  else .externalDep

/-- `PARSER_MAP[lang].parse`. -/
def parseFor : Lang → String → List String
  | .javascript => parseJs
  | .python => parsePy

/-- `PARSER_MAP[lang].classify`. -/
def classifyFor : Lang → String → DepType
  | .javascript => classifyJs
  | .python => classifyPy

/-! ## Filesystem model

The code only queries existence and file/directory status
(`fs.existsSync`, `fs.statSync(...).isFile()`, `...isDirectory()`) and
reads file contents.  A filesystem is the finite list of its regular
files (absolute path, contents); a directory exists exactly when some
file lies strictly below it. -/

/-- A filesystem: the regular files, as (absolute path, contents). -/
abbrev FS := List (Path × String)

/-- Contents of the file at `p`, if `p` is a regular file
(`fs.readFileSync`). -/
def lookupFile : FS → Path → Option String
  | [], _ => none
  | (f, src) :: rest, p => if f = p then some src else lookupFile rest p

/-- `fs.statSync(p).isFile()`. -/
def isFile (fs : FS) (p : Path) : Bool := (lookupFile fs p).isSome

/-- `fs.statSync(p).isDirectory()`: some regular file lies strictly
below `p`. -/
def isDir (fs : FS) (p : Path) : Bool :=
  fs.any (fun fe => decide (p <+: fe.1 ∧ p ≠ fe.1))

/-- `fs.existsSync(p)`. -/
def existsSync (fs : FS) (p : Path) : Bool := isFile fs p || isDir fs p

/-- Append an extension string to the last segment of a path (the string
concatenation `target + ext` of the source, on the segment model). -/
def appendExt (p : Path) (ext : String) : Path :=
  match p.getLast? with
  | none => [ext]
  | some s => p.dropLast ++ [s ++ ext]

/-- Every file path consists of valid filesystem segment names. -/
def FSValid (fs : FS) : Prop := ∀ fe ∈ fs, ValidPath fe.1

instance : DecidablePred FSValid := fun fs => by
  unfold FSValid; infer_instance

/-! ## `resolveLocal` (`src/graph.js`) -/

/-- `resolveLocal(specifier, fromFile, rootDir)`: try the exact target
path, then each extension of the originating file's language, then an
`index.<ext>` inside the target directory; `none` is the `null`
unresolved marker. -/
def resolveLocal (fs : FS) (specifier : String) (fromFile : Path) (rootDir : Path) :
    Option RelPath :=
  let dir := fromFile.dropLast
  let target := pathResolveStr dir specifier
  let exts := match detectLanguage fromFile with
    | some lang => extensionsOf lang
    | none => []
  if existsSync fs target && isFile fs target then
    some (pathRelative rootDir target)
  else
    match exts.findSome? (fun ext =>
      let withExt := appendExt target ext
      if existsSync fs withExt && isFile fs withExt then
        some (pathRelative rootDir withExt)
      else none) with
    | some r => some r
    | none =>
      if existsSync fs target && isDir fs target then
        exts.findSome? (fun ext =>
          let indexFile := target ++ ["index" ++ ext]
          if existsSync fs indexFile then some (pathRelative rootDir indexFile)
          else none)
      else none

/-- §4.3 of the specification, stated in its own words: (1) the exact
resolved path if a regular file exists there; (2) the path with each
recognised extension appended, in the fixed order, if a regular file
exists; (3) if the path is an existing directory, the first existing
`index.<ext>`; (4) otherwise the unresolved marker. -/
def resolveLocalSpec (fs : FS) (specifier : String) (fromFile : Path) (rootDir : Path) :
    Option RelPath :=
  let dir := fromFile.dropLast
  let target := pathResolveStr dir specifier
  let exts := match detectLanguage fromFile with
    | some lang => extensionsOf lang
    | none => []
  if isFile fs target then
    some (pathRelative rootDir target)
  else
    match exts.findSome? (fun ext =>
      if isFile fs (appendExt target ext) then
        some (pathRelative rootDir (appendExt target ext))
      else none) with
    | some r => some r
    | none =>
      if isDir fs target then
        exts.findSome? (fun ext =>
          if existsSync fs (target ++ ["index" ++ ext]) then
            some (pathRelative rootDir (target ++ ["index" ++ ext]))
          else none)
      else none

/-! ## The graph builder (`buildGraph` of `src/graph.js`)

The `while (queue.length > 0)` loop is written as a fuel-indexed
iteration `runFuel`; `phiMeasure` is proved to decrease at every step, so
`phiMeasure` rounds of fuel always reach the loop's exit (queue empty or
a thrown filesystem error), making the fuel-indexed function an exact
model of the loop. -/

/-- A work-queue item: absolute file path and traversal depth. -/
structure QItem where
  file : Path
  depth : Nat
deriving DecidableEq, Repr

/-- A materialised node: `{ path, language, depCount }`. -/
structure GNode where
  path : RelPath
  language : Lang
  depCount : Nat
deriving DecidableEq, Repr

/-- An edge target: a resolved local path, or the synthesized
`"[ext] name"` / `"[builtin] name"` labels the source builds for
non-local dependencies. -/
inductive ETarget where
  | localPath : RelPath → ETarget
  | label : String → ETarget
deriving DecidableEq, Repr

/-- An edge `{ from, to, specifier, type }` (`from` is `frm` here). -/
structure GEdge where
  frm : RelPath
  tgt : ETarget
  specifier : String
  dtype : DepType
deriving DecidableEq, Repr

/-- An unresolved import `{ from, specifier }`. -/
structure Unres where
  frm : RelPath
  specifier : String
deriving DecidableEq, Repr

/-- The options of `buildGraph` (defaults as in the source; `maxDepth =
none` is `Infinity`). -/
structure BuildOpts where
  rootDir : Path
  includeExternal : Bool := false
  includeBuiltin : Bool := false
  maxDepth : Option Nat := none
deriving Repr

/-- `depth < maxDepth` (`Infinity` compares greater than every depth). -/
def depthLt (d : Nat) : Option Nat → Bool
  | none => true
  | some m => d < m

/-- The build context: the filesystem and the options. -/
structure Ctx where
  fs : FS
  opts : BuildOpts

/-- The loop state of `buildGraph`: the work queue, visited set, and the
accumulating graph components, plus an error flag modelling a
`readFileSync` throw (reading a directory). -/
structure St where
  queue : List QItem
  visited : List RelPath
  nodes : List GNode
  edges : List GEdge
  externals : List String
  builtins : List String
  unresolved : List Unres
  err : Bool
deriving Repr

/-- Handle one extracted specifier `dep` of the file at `relPath`
(the body of `for (const dep of deps)`). -/
def processDep (ctx : Ctx) (lang : Lang) (it : QItem) (relPath : RelPath)
    (st : St) (dep : String) : St :=
  match classifyFor lang dep with
  | .localDep =>
    match resolveLocal ctx.fs dep it.file ctx.opts.rootDir with
    | some resolved =>
      let st := { st with
        edges := st.edges ++ [⟨relPath, .localPath resolved, dep, .localDep⟩] }
      if depthLt it.depth ctx.opts.maxDepth then
        { st with queue := st.queue ++
            [⟨pathResolveRel ctx.opts.rootDir resolved, it.depth + 1⟩] }
      else st
    | none => { st with unresolved := st.unresolved ++ [⟨relPath, dep⟩] }
  | .externalDep =>
    let st := { st with externals := addUnique st.externals dep }
    if ctx.opts.includeExternal then
      { st with edges := st.edges ++
          [⟨relPath, .label ("[ext] " ++ dep), dep, .externalDep⟩] }
    else st
  | .builtinDep =>
    let st := { st with builtins := addUnique st.builtins dep }
    if ctx.opts.includeBuiltin then
      { st with edges := st.edges ++
          [⟨relPath, .label ("[builtin] " ++ dep), dep, .builtinDep⟩] }
    else st

/-- Handle all extracted specifiers of a file, in order. -/
def processDeps (ctx : Ctx) (lang : Lang) (it : QItem) (relPath : RelPath)
    (deps : List String) (st : St) : St :=
  deps.foldl (processDep ctx lang it relPath) st

/-- Process one dequeued item (the body of the `while` loop, after the
`shift`): skip if visited, mark visited, skip silently if nonexistent or
of unrecognised language, else read (a directory read throws — `err`),
scan, materialise the node and handle its specifiers. -/
def processItem (ctx : Ctx) (st : St) (it : QItem) : St :=
  let relPath := pathRelative ctx.opts.rootDir it.file
  if relPath ∈ st.visited then st
  else
    let st := { st with visited := st.visited ++ [relPath] }
    if !existsSync ctx.fs it.file then st
    else
      match detectLanguage it.file with
      | none => st
      | some lang =>
        match lookupFile ctx.fs it.file with
        | none => { st with err := true }
        | some source =>
          let deps := parseFor lang source
          let st := { st with nodes := st.nodes ++ [⟨relPath, lang, deps.length⟩] }
          processDeps ctx lang it relPath deps st

/-- The `while (queue.length > 0)` loop, indexed by fuel.  A thrown
`readFileSync` error aborts the loop as an exception would. -/
def runFuel (ctx : Ctx) : Nat → St → St
  | 0, st => st
  | fuel + 1, st =>
    match st.queue with
    | [] => st
    | it :: rest =>
      let st' := processItem ctx { st with queue := rest } it
      if st'.err then st' else runFuel ctx fuel st'

/-- Dependency count of a filesystem entry under its detected language
(`0` if the extension is unrecognised; such files are never scanned). -/
def depsCountOf (fe : Path × String) : Nat :=
  match detectLanguage fe.1 with
  | some lang => (parseFor lang fe.2).length
  | none => 0

/-- Pending-scan budget: for every filesystem entry whose root-relative
path is not in the visited list `v`, one scan plus its potential
enqueues. -/
def phiSum (ctx : Ctx) (v : List RelPath) : Nat :=
  ((ctx.fs.filter (fun fe =>
      !decide (pathRelative ctx.opts.rootDir fe.1 ∈ v))).map
    (fun fe => 1 + depsCountOf fe)).sum

/-- Termination measure of the loop: queue length plus the pending-scan
budget.  Every loop iteration strictly decreases it
(`phiMeasure_step`). -/
def phiMeasure (ctx : Ctx) (st : St) : Nat :=
  st.queue.length + phiSum ctx st.visited

/-- One entry string as a path:
`path.isAbsolute(e) ? e : path.resolve(rootDir, e)`.  A relative entry
is normalised by `path.resolve` in the source itself, which
`pathResolveStr` models exactly.  An absolute entry is kept raw by the
source and handed raw to `fs.existsSync` later, while `path.relative`
normalises it textually for the visited key; this model normalises it up
front instead, so theorems relating the visited set to scans are scoped
to builds whose entries are all relative. -/
def entryToPath (rootDir : Path) (e : String) : Path :=
  pathResolveStr rootDir e

/-- The initial loop state for a list of entry strings. -/
def initSt (rootDir : Path) (entries : List String) : St :=
  { queue := entries.map (fun e => ⟨entryToPath rootDir e, 0⟩)
    visited := [], nodes := [], edges := [], externals := [], builtins := []
    unresolved := [], err := false }

/-- Run the build loop to completion from the given entries. -/
def buildState (ctx : Ctx) (entries : List String) : St :=
  let s0 := initSt ctx.opts.rootDir entries
  runFuel ctx (phiMeasure ctx s0) s0

/-- The result value `{ nodes, edges, externals, builtins, unresolved }`. -/
structure Graph where
  nodes : List GNode
  edges : List GEdge
  externals : List String
  builtins : List String
  unresolved : List Unres
deriving DecidableEq, Repr

/-- Insertion sort with a boolean comparator (the effect of
`Array.prototype.sort` on the deduplicated name sets). -/
def insertSorted (x : String) : List String → List String
  | [] => [x]
  | y :: rest => if decide (x ≤ y) then x :: y :: rest else y :: insertSorted x rest

/-- Sort a list of names lexicographically. -/
def sortStrings : List String → List String
  | [] => []
  | x :: rest => insertSorted x (sortStrings rest)

/-- `buildGraph(entries, options)`: run the traversal; a thrown
filesystem error propagates to the caller as `Except.error`. -/
def buildGraph (fs : FS) (entries : List String) (opts : BuildOpts) :
    Except String Graph :=
  let sf := buildState ⟨fs, opts⟩ entries
  if sf.err then .error "EISDIR: illegal operation on a directory, read"
  else .ok ⟨sf.nodes, sf.edges, sortStrings sf.externals, sortStrings sf.builtins,
            sf.unresolved⟩

/-- Pop the last `n` segments of a path. -/
def dropLastN : Path → Nat → Path
  | b, 0 => b
  | b, n + 1 => dropLastN b.dropLast n


/-- The edge contributed by one specifier, if any. -/
def depEdgeOf (ctx : Ctx) (lang : Lang) (it : QItem) (relPath : RelPath)
    (dep : String) : Option GEdge :=
  match classifyFor lang dep with
  | .localDep =>
    (resolveLocal ctx.fs dep it.file ctx.opts.rootDir).map
      (fun r => ⟨relPath, .localPath r, dep, .localDep⟩)
  | .externalDep =>
    if ctx.opts.includeExternal then
      some ⟨relPath, .label ("[ext] " ++ dep), dep, .externalDep⟩
    else none
  | .builtinDep =>
    if ctx.opts.includeBuiltin then
      some ⟨relPath, .label ("[builtin] " ++ dep), dep, .builtinDep⟩
    else none

/-- The queue item contributed by one specifier, if any. -/
def depPushOf (ctx : Ctx) (lang : Lang) (it : QItem) (dep : String) : Option QItem :=
  match classifyFor lang dep with
  | .localDep =>
    match resolveLocal ctx.fs dep it.file ctx.opts.rootDir with
    | some r =>
      if depthLt it.depth ctx.opts.maxDepth then
        some ⟨pathResolveRel ctx.opts.rootDir r, it.depth + 1⟩
      else none
    | none => none
  | _ => none

/-- The unresolved record contributed by one specifier, if any. -/
def depUnresOf (ctx : Ctx) (lang : Lang) (it : QItem) (relPath : RelPath)
    (dep : String) : Option Unres :=
  match classifyFor lang dep with
  | .localDep =>
    match resolveLocal ctx.fs dep it.file ctx.opts.rootDir with
    | some _ => none
    | none => some ⟨relPath, dep⟩
  | _ => none

/-- The paths of the materialised nodes, in scan order. -/
def nodePaths (st : St) : List RelPath := st.nodes.map (fun n => n.path)

/-- The invariant maintained by every iteration of the traversal loop
(under a well-formed filesystem and root).  It packages everything the
specification claims need: queue paths stay well-formed, nodes are
created at most once and only for visited paths of scanned files, edge
sources are scanned nodes, local edge targets exist on disk and are
visited or still queued, and each scanned file's unresolved local
specifiers are recorded exactly once with no matching edge. -/
structure Inv (ctx : Ctx) (st : St) : Prop where
  qvalid : ∀ it ∈ st.queue, ValidPath it.file
  nodupNodes : (nodePaths st).Nodup
  nodesVisited : ∀ q ∈ nodePaths st, q ∈ st.visited
  nodesInFs : ∀ q ∈ nodePaths st,
    q ∈ ctx.fs.map (fun fe => pathRelative ctx.opts.rootDir fe.1)
  nodupVisited : st.visited.Nodup
  visitedNode : ∀ q ∈ st.visited,
    existsSync ctx.fs (pathResolveRel ctx.opts.rootDir q) = true →
    detectLanguage (pathResolveRel ctx.opts.rootDir q) ≠ none →
    q ∈ nodePaths st ∨ st.err = true
  edgesFrom : ∀ e ∈ st.edges, e.frm ∈ st.visited ∧ e.frm ∈ nodePaths st
  localType : ∀ e ∈ st.edges, e.dtype = .localDep → ∃ p, e.tgt = .localPath p
  localEdges : ∀ e ∈ st.edges, ∀ p, e.tgt = .localPath p →
    existsSync ctx.fs (pathResolveRel ctx.opts.rootDir p) = true ∧
    (ctx.opts.maxDepth = none →
      (p ∈ st.visited ∨ ∃ it ∈ st.queue, pathRelative ctx.opts.rootDir it.file = p))
  unresFrom : ∀ u ∈ st.unresolved, u.frm ∈ nodePaths st
  nodeData : ∀ n ∈ st.nodes,
    ∃ src, lookupFile ctx.fs (pathResolveRel ctx.opts.rootDir n.path) = some src ∧
      detectLanguage (pathResolveRel ctx.opts.rootDir n.path) = some n.language ∧
      n.depCount = (parseFor n.language src).length ∧
      (∀ dep ∈ parseFor n.language src,
        classifyFor n.language dep = .localDep →
        resolveLocal ctx.fs dep (pathResolveRel ctx.opts.rootDir n.path)
          ctx.opts.rootDir = none →
        (st.unresolved.filter
          (fun u => u.frm = n.path && u.specifier = dep)).length = 1 ∧
        (∀ e ∈ st.edges, ¬(e.frm = n.path ∧ e.specifier = dep)))


/-! ## Classification rules as the specification words them

`classifyJsClaimRule` transcribes §4.2 of the specification literally: a
leading path marker means local, else membership of the leading path
segment in the fixed standard-library list means builtin, else external.
`classifyJsAmended` adds the one rule the source has beyond that: any
`node:`-prefixed specifier is builtin. -/

/-- §4.2's classification rule for JavaScript, in the claim's own words. -/
def classifyJsClaimRule (specifier : String) : DepType :=
  if startsWithStr specifier "." || startsWithStr specifier "/" then .localDep
  else if NODE_BUILTINS.contains (firstSegment '/' specifier) then .builtinDep
  else .externalDep

/-- The claim's rule amended with the source's `node:` prefix case. -/
def classifyJsAmended (specifier : String) : DepType :=
  if startsWithStr specifier "." || startsWithStr specifier "/" then .localDep
  else if startsWithStr specifier "node:" ||
      NODE_BUILTINS.contains (firstSegment '/' specifier) then .builtinDep
  else .externalDep

/-- §4.2's classification rule for Python, in the claim's own words. -/
def classifyPyClaimRule (s : String) : DepType :=
  if startsWithStr s "." then .localDep
  else if PYTHON_STDLIB.contains (firstSegment '.' s) then .builtinDep
  else .externalDep

/-! ## Concrete build scenarios used to settle the claims -/

/-- Default options at project root `/p`. -/
def optsP : BuildOpts := { rootDir := ["p"] }

/-- Options at `/p` with `maxDepth = 1`. -/
def optsD1 : BuildOpts := { rootDir := ["p"], maxDepth := some 1 }

/-- Two JavaScript files importing each other (the circular case of the
repository's own test suite). -/
def fsCycle : FS :=
  [(["p", "a.js"], "require('./b')"), (["p", "b.js"], "require('./a')")]

/-- The cycle scenario's build context. -/
def ctxCycle : Ctx := ⟨fsCycle, optsP⟩

/-- A JavaScript file importing a `.json` file (a resolvable local file
whose extension maps to no recognised language). -/
def fsJson : FS :=
  [(["p", "a.js"], "require('./data.json')"), (["p", "data.json"], "x")]

/-- The JSON-import scenario's build context. -/
def ctxJson : Ctx := ⟨fsJson, optsP⟩

/-- An empty filesystem (for a nonexistent entry path). -/
def ctxGhost : Ctx := ⟨[], optsP⟩

/-- The three-file chain a → b → c of the depth-bound example. -/
def fsChain : FS :=
  [(["p", "a.js"], "require('./b')"), (["p", "b.js"], "require('./c')"),
   (["p", "c.js"], "")]

/-- A file with one unresolvable local import. -/
def fsMiss : FS := [(["p", "i.js"], "require('./missing')")]

/-- The unresolved-import scenario's build context. -/
def ctxMiss : Ctx := ⟨fsMiss, optsP⟩

/-! ## Generic list lemmas -/

theorem sum_map_filter_mono {α : Type} (g : α → Nat) (q q' : α → Bool)
    (hmono : ∀ x, q' x = true → q x = true) :
    ∀ (l : List α), ((l.filter q').map g).sum ≤ ((l.filter q).map g).sum := by
  intro l
  induction l with
  | nil => simp
  | cons x rest ih =>
    by_cases hq' : q' x = true
    · have hq := hmono x hq'
      simp [List.filter_cons, hq, hq']
      omega
    · have hq'f : q' x = false := Bool.eq_false_iff.mpr hq'
      by_cases hq : q x = true
      · simp [List.filter_cons, hq, hq'f]
        omega
      · have hqf : q x = false := Bool.eq_false_iff.mpr hq
        simp [List.filter_cons, hqf, hq'f]
        exact ih

theorem sum_map_filter_remove {α : Type} (g : α → Nat) (q q' : α → Bool)
    (hmono : ∀ y, q' y = true → q y = true) :
    ∀ (l : List α) (x : α), x ∈ l → q x = true → q' x = false →
      ((l.filter q').map g).sum + g x ≤ ((l.filter q).map g).sum := by
  intro l
  induction l with
  | nil => intro x hx; exact absurd hx (List.not_mem_nil x)
  | cons y rest ih =>
    intro x hx hq hq'
    rcases List.mem_cons.mp hx with hxy | hxr
    · subst hxy
      have := sum_map_filter_mono g q q' hmono rest
      simp [List.filter_cons, hq, hq']
      omega
    · by_cases hqy' : q' y = true
      · have hqy := hmono y hqy'
        have := ih x hxr hq hq'
        simp [List.filter_cons, hqy, hqy']
        omega
      · have hq'f : q' y = false := Bool.eq_false_iff.mpr hqy'
        by_cases hqy : q y = true
        · have := ih x hxr hq hq'
          simp [List.filter_cons, hqy, hq'f]
          omega
        · have hqf : q y = false := Bool.eq_false_iff.mpr hqy
          simp [List.filter_cons, hqf, hq'f]
          exact ih x hxr hq hq'

theorem sum_map_le_length {α : Type} (g : α → Nat) (hg : ∀ x, g x ≤ 1) :
    ∀ (l : List α), (l.map g).sum ≤ l.length := by
  intro l
  induction l with
  | nil => simp
  | cons x rest ih =>
    simp only [List.map_cons, List.sum_cons, List.length_cons]
    have := hg x
    omega

theorem lookupFile_mem : ∀ (fs : FS) (p : Path) (src : String),
    lookupFile fs p = some src → (p, src) ∈ fs := by
  intro fs
  induction fs with
  | nil => intro p src h; simp [lookupFile] at h
  | cons fe rest ih =>
    intro p src h
    rw [lookupFile] at h
    by_cases hfp : fe.1 = p
    · simp only [hfp, if_true] at h
      have hfe : fe = (p, src) := by
        cases fe
        simp_all
      rw [← hfe]
      exact List.mem_cons_self _ _
    · simp only [hfp, if_false] at h
      exact List.mem_cons_of_mem _ (ih p src h)

theorem isFile_exists {fs : FS} {p : Path} (h : isFile fs p = true) :
    existsSync fs p = true := by
  simp [existsSync, h]

/-! ## Field-wise characterisation of specifier processing -/

theorem processDep_edges (ctx : Ctx) (lang : Lang) (it : QItem) (relPath : RelPath)
    (st : St) (dep : String) :
    (processDep ctx lang it relPath st dep).edges =
      st.edges ++ (depEdgeOf ctx lang it relPath dep).toList := by
  unfold processDep depEdgeOf
  cases classifyFor lang dep <;>
    cases hres : resolveLocal ctx.fs dep it.file ctx.opts.rootDir <;>
    simp [hres] <;> split <;> simp

theorem processDep_queue (ctx : Ctx) (lang : Lang) (it : QItem) (relPath : RelPath)
    (st : St) (dep : String) :
    (processDep ctx lang it relPath st dep).queue =
      st.queue ++ (depPushOf ctx lang it dep).toList := by
  unfold processDep depPushOf
  cases classifyFor lang dep <;>
    cases hres : resolveLocal ctx.fs dep it.file ctx.opts.rootDir <;>
    simp [hres] <;> split <;> simp

theorem processDep_unres (ctx : Ctx) (lang : Lang) (it : QItem) (relPath : RelPath)
    (st : St) (dep : String) :
    (processDep ctx lang it relPath st dep).unresolved =
      st.unresolved ++ (depUnresOf ctx lang it relPath dep).toList := by
  unfold processDep depUnresOf
  cases classifyFor lang dep <;>
    cases hres : resolveLocal ctx.fs dep it.file ctx.opts.rootDir <;>
    simp [hres] <;> split <;> simp

theorem processDep_nodes (ctx : Ctx) (lang : Lang) (it : QItem) (relPath : RelPath)
    (st : St) (dep : String) :
    (processDep ctx lang it relPath st dep).nodes = st.nodes := by
  unfold processDep
  cases classifyFor lang dep <;>
    cases hres : resolveLocal ctx.fs dep it.file ctx.opts.rootDir <;>
    simp [hres] <;> split <;> simp

theorem processDep_visited (ctx : Ctx) (lang : Lang) (it : QItem) (relPath : RelPath)
    (st : St) (dep : String) :
    (processDep ctx lang it relPath st dep).visited = st.visited := by
  unfold processDep
  cases classifyFor lang dep <;>
    cases hres : resolveLocal ctx.fs dep it.file ctx.opts.rootDir <;>
    simp [hres] <;> split <;> simp

theorem processDep_err (ctx : Ctx) (lang : Lang) (it : QItem) (relPath : RelPath)
    (st : St) (dep : String) :
    (processDep ctx lang it relPath st dep).err = st.err := by
  unfold processDep
  cases classifyFor lang dep <;>
    cases hres : resolveLocal ctx.fs dep it.file ctx.opts.rootDir <;>
    simp [hres] <;> split <;> simp

theorem processDeps_edges (ctx : Ctx) (lang : Lang) (it : QItem) (relPath : RelPath) :
    ∀ (deps : List String) (st : St),
    (processDeps ctx lang it relPath deps st).edges =
      st.edges ++ deps.flatMap (fun d => (depEdgeOf ctx lang it relPath d).toList) := by
  intro deps
  induction deps with
  | nil => intro st; simp [processDeps]
  | cons d rest ih =>
    intro st
    simp only [processDeps, List.foldl_cons, List.flatMap_cons]
    rw [show List.foldl (processDep ctx lang it relPath)
        (processDep ctx lang it relPath st d) rest =
        processDeps ctx lang it relPath rest (processDep ctx lang it relPath st d)
        from rfl]
    rw [ih, processDep_edges]
    simp

theorem processDeps_queue (ctx : Ctx) (lang : Lang) (it : QItem) (relPath : RelPath) :
    ∀ (deps : List String) (st : St),
    (processDeps ctx lang it relPath deps st).queue =
      st.queue ++ deps.flatMap (fun d => (depPushOf ctx lang it d).toList) := by
  intro deps
  induction deps with
  | nil => intro st; simp [processDeps]
  | cons d rest ih =>
    intro st
    simp only [processDeps, List.foldl_cons, List.flatMap_cons]
    rw [show List.foldl (processDep ctx lang it relPath)
        (processDep ctx lang it relPath st d) rest =
        processDeps ctx lang it relPath rest (processDep ctx lang it relPath st d)
        from rfl]
    rw [ih, processDep_queue]
    simp

theorem processDeps_unres (ctx : Ctx) (lang : Lang) (it : QItem) (relPath : RelPath) :
    ∀ (deps : List String) (st : St),
    (processDeps ctx lang it relPath deps st).unresolved =
      st.unresolved ++ deps.flatMap (fun d => (depUnresOf ctx lang it relPath d).toList) := by
  intro deps
  induction deps with
  | nil => intro st; simp [processDeps]
  | cons d rest ih =>
    intro st
    simp only [processDeps, List.foldl_cons, List.flatMap_cons]
    rw [show List.foldl (processDep ctx lang it relPath)
        (processDep ctx lang it relPath st d) rest =
        processDeps ctx lang it relPath rest (processDep ctx lang it relPath st d)
        from rfl]
    rw [ih, processDep_unres]
    simp

theorem processDeps_nodes (ctx : Ctx) (lang : Lang) (it : QItem) (relPath : RelPath) :
    ∀ (deps : List String) (st : St),
    (processDeps ctx lang it relPath deps st).nodes = st.nodes := by
  intro deps
  induction deps with
  | nil => intro st; simp [processDeps]
  | cons d rest ih =>
    intro st
    simp only [processDeps, List.foldl_cons]
    rw [show List.foldl (processDep ctx lang it relPath)
        (processDep ctx lang it relPath st d) rest =
        processDeps ctx lang it relPath rest (processDep ctx lang it relPath st d)
        from rfl]
    rw [ih, processDep_nodes]

theorem processDeps_visited (ctx : Ctx) (lang : Lang) (it : QItem) (relPath : RelPath) :
    ∀ (deps : List String) (st : St),
    (processDeps ctx lang it relPath deps st).visited = st.visited := by
  intro deps
  induction deps with
  | nil => intro st; simp [processDeps]
  | cons d rest ih =>
    intro st
    simp only [processDeps, List.foldl_cons]
    rw [show List.foldl (processDep ctx lang it relPath)
        (processDep ctx lang it relPath st d) rest =
        processDeps ctx lang it relPath rest (processDep ctx lang it relPath st d)
        from rfl]
    rw [ih, processDep_visited]

theorem processDeps_err (ctx : Ctx) (lang : Lang) (it : QItem) (relPath : RelPath) :
    ∀ (deps : List String) (st : St),
    (processDeps ctx lang it relPath deps st).err = st.err := by
  intro deps
  induction deps with
  | nil => intro st; simp [processDeps]
  | cons d rest ih =>
    intro st
    simp only [processDeps, List.foldl_cons]
    rw [show List.foldl (processDep ctx lang it relPath)
        (processDep ctx lang it relPath st d) rest =
        processDeps ctx lang it relPath rest (processDep ctx lang it relPath st d)
        from rfl]
    rw [ih, processDep_err]

/-! ## Termination of the traversal loop -/

theorem phiSum_mono (ctx : Ctx) (v : List RelPath) (p : RelPath) :
    phiSum ctx (v ++ [p]) ≤ phiSum ctx v := by
  unfold phiSum
  apply sum_map_filter_mono
  intro y hy
  simp only [Bool.not_eq_eq_eq_not, Bool.not_true, decide_eq_false_iff_not] at hy ⊢
  intro hmem
  exact hy (List.mem_append_left _ hmem)

theorem phiSum_remove (ctx : Ctx) (v : List RelPath) (fe : Path × String)
    (hmem : fe ∈ ctx.fs) (hv : pathRelative ctx.opts.rootDir fe.1 ∉ v) :
    phiSum ctx (v ++ [pathRelative ctx.opts.rootDir fe.1]) + (1 + depsCountOf fe) ≤
      phiSum ctx v := by
  unfold phiSum
  apply sum_map_filter_remove
  · intro y hy
    simp only [Bool.not_eq_eq_eq_not, Bool.not_true, decide_eq_false_iff_not] at hy ⊢
    intro hmemv
    exact hy (List.mem_append_left _ hmemv)
  · exact hmem
  · simp [hv]
  · simp

/-- Number of queue items contributed by one scan: at most the number of
extracted specifiers. -/
theorem pushes_length_le (ctx : Ctx) (lang : Lang) (it : QItem) (deps : List String) :
    (deps.flatMap (fun d => (depPushOf ctx lang it d).toList)).length ≤ deps.length := by
  rw [List.length_flatMap]
  apply sum_map_le_length
  intro d
  cases h : depPushOf ctx lang it d <;> simp [h]

/-- One loop iteration strictly decreases the termination measure. -/
theorem phiMeasure_step (ctx : Ctx) (st : St) (it : QItem) (rest : List QItem)
    (hq : st.queue = it :: rest) :
    phiMeasure ctx (processItem ctx { st with queue := rest } it) < phiMeasure ctx st := by
  have hphi : phiMeasure ctx st = rest.length + 1 + phiSum ctx st.visited := by
    simp [phiMeasure, hq]
  rw [hphi]
  unfold processItem
  by_cases hv : pathRelative ctx.opts.rootDir it.file ∈ st.visited
  · simp only [hv, if_true]
    simp [phiMeasure]
  · simp only [hv, if_false]
    have hmono := phiSum_mono ctx st.visited (pathRelative ctx.opts.rootDir it.file)
    by_cases hex : existsSync ctx.fs it.file = true
    · simp only [hex, Bool.not_true, Bool.false_eq_true, if_false]
      cases hlang : detectLanguage it.file with
      | none =>
        simp [phiMeasure]
        omega
      | some lang =>
        cases hsrc : lookupFile ctx.fs it.file with
        | none =>
          simp [phiMeasure]
          omega
        | some source =>
          simp only []
          have hfe : (it.file, source) ∈ ctx.fs := lookupFile_mem ctx.fs it.file source hsrc
          have hrem := phiSum_remove ctx st.visited (it.file, source) hfe hv
          have hdc : depsCountOf (it.file, source) = (parseFor lang source).length := by
            simp [depsCountOf, hlang]
          have hqlen := pushes_length_le ctx lang it (parseFor lang source)
          rw [phiMeasure]
          rw [processDeps_queue, processDeps_visited]
          simp only [List.length_append]
          simp only [hdc] at hrem
          omega
    · have hexf : existsSync ctx.fs it.file = false := Bool.eq_false_iff.mpr hex
      simp only [hexf, Bool.not_false, if_true]
      simp [phiMeasure]
      omega

/-- With fuel at least the measure, the loop runs to completion: it stops
with an empty queue or on a thrown filesystem error. -/
theorem runFuel_exits (ctx : Ctx) :
    ∀ (fuel : Nat) (st : St), phiMeasure ctx st ≤ fuel →
      (runFuel ctx fuel st).queue = [] ∨ (runFuel ctx fuel st).err = true := by
  intro fuel
  induction fuel with
  | zero =>
    intro st hle
    left
    have h0 : phiMeasure ctx st = 0 := Nat.le_zero.mp hle
    unfold phiMeasure at h0
    have hlen : st.queue.length = 0 := by omega
    simpa using List.eq_nil_of_length_eq_zero hlen
  | succ fuel ih =>
    intro st hle
    rw [runFuel]
    cases hq : st.queue with
    | nil => left; simp [hq]
    | cons it rest =>
      simp only []
      by_cases herr : (processItem ctx { st with queue := rest } it).err = true
      · right
        simp [herr]
      · have herrf := Bool.eq_false_iff.mpr herr
        simp only [herrf, Bool.false_eq_true, if_false]
        apply ih
        have hstep := phiMeasure_step ctx st it rest hq
        omega

/-- Invariant preservation through the loop: a predicate preserved by
every dequeue step holds of the final state. -/
theorem runFuel_inv (ctx : Ctx) (P : St → Prop)
    (hstep : ∀ (st : St) (it : QItem) (rest : List QItem), st.queue = it :: rest →
      P st → P (processItem ctx { st with queue := rest } it)) :
    ∀ (fuel : Nat) (st : St), P st → P (runFuel ctx fuel st) := by
  intro fuel
  induction fuel with
  | zero => intro st hP; simpa [runFuel]
  | succ fuel ih =>
    intro st hP
    rw [runFuel]
    cases hq : st.queue with
    | nil => exact hP
    | cons it rest =>
      simp only []
      have hP' := hstep st it rest hq hP
      by_cases herr : (processItem ctx { st with queue := rest } it).err = true
      · simpa [herr]
      · have herrf := Bool.eq_false_iff.mpr herr
        simpa [herrf] using ih _ hP'

/-! ## Path lemmas: normalisation, validity and the relative/resolve
round trip -/

theorem applySegs_valid_parts :
    ∀ (parts : List String) (base : Path), (∀ s ∈ parts, ValidSeg s) →
      applySegs base parts = base ++ parts := by
  intro parts
  induction parts with
  | nil => intro base _; simp [applySegs]
  | cons seg rest ih =>
    intro base h
    obtain ⟨h1, h2, h3, _⟩ := h seg (List.mem_cons_self _ _)
    rw [applySegs, if_neg (by simp [h1, h2]), if_neg h3]
    rw [ih _ (fun s hs => h s (List.mem_cons_of_mem _ hs))]
    simp

theorem applySegs_ups :
    ∀ (n : Nat) (base : Path) (parts : List String),
      applySegs base (List.replicate n ".." ++ parts) =
        applySegs (dropLastN base n) parts := by
  intro n
  induction n with
  | zero => intro base parts; simp [dropLastN]
  | succ n ih =>
    intro base parts
    rw [List.replicate_succ, List.cons_append, applySegs,
      if_neg (by simp), if_pos rfl]
    exact ih base.dropLast parts

theorem dropLastN_append :
    ∀ (ys xs : List String), dropLastN (xs ++ ys) ys.length = xs := by
  intro ys
  induction ys using List.reverseRecOn with
  | nil => intro xs; simp [dropLastN]
  | append_singleton ys y ih =>
    intro xs
    have hlen : (ys ++ [y]).length = ys.length + 1 := by simp
    rw [hlen]
    show dropLastN (xs ++ (ys ++ [y])).dropLast ys.length = xs
    rw [← List.append_assoc, List.dropLast_concat]
    exact ih xs

theorem commonPrefixLen_le_left :
    ∀ (a b : List String), commonPrefixLen a b ≤ a.length := by
  intro a
  induction a with
  | nil => intro b; cases b <;> simp [commonPrefixLen]
  | cons x as ih =>
    intro b
    cases b with
    | nil => simp [commonPrefixLen]
    | cons y bs =>
      rw [commonPrefixLen]
      split
      · have := ih bs
        simp only [List.length_cons]
        omega
      · simp

theorem take_commonPrefixLen_eq :
    ∀ (a b : List String), a.take (commonPrefixLen a b) = b.take (commonPrefixLen a b) := by
  intro a
  induction a with
  | nil => intro b; cases b <;> simp [commonPrefixLen]
  | cons x as ih =>
    intro b
    cases b with
    | nil => simp [commonPrefixLen]
    | cons y bs =>
      rw [commonPrefixLen]
      split
      · rename_i hxy
        simp only [List.take_succ_cons, hxy]
        rw [ih bs]
      · simp

/-- The round trip at the heart of the builder: resolving the
root-relative rendering of a (well-formed) absolute path against the root
gives the path back. -/
theorem resolveRel_relative (root t : Path) (hv : ValidPath t) :
    pathResolveRel root (pathRelative root t) = t := by
  unfold pathResolveRel pathRelative
  simp only
  rw [applySegs_ups]
  have hc : commonPrefixLen root t ≤ root.length := commonPrefixLen_le_left root t
  have hsplit : root.take (commonPrefixLen root t) ++ root.drop (commonPrefixLen root t)
      = root := List.take_append_drop _ root
  have hlen : (root.drop (commonPrefixLen root t)).length
      = root.length - commonPrefixLen root t := List.length_drop _ _
  have hdl : dropLastN root (root.length - commonPrefixLen root t)
      = root.take (commonPrefixLen root t) := by
    have h2 := dropLastN_append (root.drop (commonPrefixLen root t))
      (root.take (commonPrefixLen root t))
    rw [hsplit, hlen] at h2
    exact h2
  rw [hdl]
  rw [applySegs_valid_parts _ _ (fun s hs => hv s (List.drop_subset _ t hs))]
  rw [take_commonPrefixLen_eq]
  exact List.take_append_drop _ t

theorem splitChar_no_sep (sep : Char) :
    ∀ (l : List Char) (p : List Char), p ∈ splitChar sep l → sep ∉ p := by
  intro l
  induction l with
  | nil =>
    intro p hp
    rw [splitChar] at hp
    simp at hp
    simp [hp]
  | cons c rest ih =>
    intro p hp
    rw [splitChar] at hp
    by_cases hc : c = sep
    · simp only [hc, if_true] at hp
      rcases List.mem_cons.mp hp with h | h
      · simp [h]
      · exact ih p h
    · simp only [hc, if_false] at hp
      cases hsc : splitChar sep rest with
      | nil =>
        rw [hsc] at hp
        simp at hp
        simp [hp, Ne.symm hc]
      | cons q qs =>
        rw [hsc] at hp
        rcases List.mem_cons.mp hp with h | h
        · subst h
          intro hmem
          rcases List.mem_cons.mp hmem with h' | h'
          · exact hc h'.symm
          · exact ih q (hsc ▸ List.mem_cons_self _ _) h'
        · exact ih p (hsc ▸ List.mem_cons_of_mem _ h)

theorem applySegs_no_slash_valid :
    ∀ (parts : List String) (base : Path), ValidPath base →
      (∀ s ∈ parts, '/' ∉ s.toList) → ValidPath (applySegs base parts) := by
  intro parts
  induction parts with
  | nil => intro base hb _; simpa [applySegs]
  | cons seg rest ih =>
    intro base hb hp
    rw [applySegs]
    split
    · exact ih base hb (fun s hs => hp s (List.mem_cons_of_mem _ hs))
    · split
      · exact ih base.dropLast
          (fun s hs => hb s ((List.dropLast_sublist base).subset hs))
          (fun s hs => hp s (List.mem_cons_of_mem _ hs))
      · rename_i hne hdd
        apply ih (base ++ [seg])
        · intro s hs
          rcases List.mem_append.mp hs with h | h
          · exact hb s h
          · have hseq : s = seg := by simpa using h
            subst hseq
            refine ⟨?_, ?_, hdd, hp s (List.mem_cons_self _ _)⟩
            · intro h0; exact hne (Or.inl h0)
            · intro h0; exact hne (Or.inr h0)
        · exact fun s hs => hp s (List.mem_cons_of_mem _ hs)

theorem pathResolveStr_valid (base : Path) (s : String) (hb : ValidPath base) :
    ValidPath (pathResolveStr base s) := by
  unfold pathResolveStr
  have hparts : ∀ x ∈ (splitSlash s.toList).map (fun l => String.mk l),
      '/' ∉ x.toList := by
    intro x hx
    rcases List.mem_map.mp hx with ⟨l, hl, hxl⟩
    subst hxl
    exact splitChar_no_sep '/' s.toList l hl
  split
  · exact applySegs_no_slash_valid _ [] (by intro s hs; simp at hs) hparts
  · exact applySegs_no_slash_valid _ base hb hparts

theorem pathResolveRel_valid (base : Path) (r : RelPath) (hb : ValidPath base)
    (hsegs : ∀ s ∈ r.segs, '/' ∉ s.toList) :
    ValidPath (pathResolveRel base r) := by
  unfold pathResolveRel
  apply applySegs_no_slash_valid _ base hb
  intro s hs
  rcases List.mem_append.mp hs with h | h
  · have : s = ".." := List.eq_of_mem_replicate h
    subst this
    decide
  · exact hsegs s h

/-! ## What a successful `resolveLocal` returns -/

theorem toList_inj {a b : String} (h : a.toList = b.toList) : a = b := by
  cases a
  cases b
  simp only [String.toList] at h
  rw [h]

theorem ne_of_toList_length {a b : String} (h : a.toList.length ≠ b.toList.length) :
    a ≠ b :=
  fun he => h (he ▸ rfl)

theorem string_toList_append (a b : String) : (a ++ b).toList = a.toList ++ b.toList := by
  cases a
  cases b
  rfl

theorem extensionsOf_valid (lang : Lang) :
    ∀ ext ∈ extensionsOf lang,
      ValidSeg ext ∧ 2 ≤ ext.toList.length ∧ ValidSeg ("index" ++ ext) := by
  cases lang <;> decide

theorem appendExt_valid (t : Path) (ext : String) (hv : ValidPath t)
    (hext : ValidSeg ext) (hlen : 2 ≤ ext.toList.length) :
    ValidPath (appendExt t ext) := by
  unfold appendExt
  cases hlast : t.getLast? with
  | none =>
    intro s hs
    have : s = ext := by simpa using hs
    subst this
    exact hext
  | some s0 =>
    intro s hs
    rcases List.mem_append.mp hs with h | h
    · exact hv s ((List.dropLast_sublist t).subset h)
    · have hseq : s = s0 ++ ext := by simpa using h
      subst hseq
      have hs0mem : s0 ∈ t := by
        obtain ⟨hne, heq⟩ := List.mem_getLast?_eq_getLast (l := t) (x := s0)
          (by simp [hlast])
        exact heq ▸ List.getLast_mem hne
      have hs0 : ValidSeg s0 := hv s0 hs0mem
      have hs0ne : s0.toList ≠ [] := by
        intro h0
        exact hs0.1 (toList_inj (by simpa using h0))
      have hs0len : 1 ≤ s0.toList.length := by
        cases hl : s0.toList with
        | nil => exact absurd hl hs0ne
        | cons a as => simp
      have hlapp : (s0 ++ ext).toList.length = s0.toList.length + ext.toList.length := by
        rw [string_toList_append, List.length_append]
      have h3 : 3 ≤ (s0 ++ ext).toList.length := by omega
      refine ⟨?_, ?_, ?_, ?_⟩
      · apply ne_of_toList_length
        have h0 : ("" : String).toList.length = 0 := by decide
        omega
      · apply ne_of_toList_length
        have h0 : ("." : String).toList.length = 1 := by decide
        omega
      · apply ne_of_toList_length
        have h0 : (".." : String).toList.length = 2 := by decide
        omega
      · rw [string_toList_append]
        intro hmem
        rcases List.mem_append.mp hmem with h' | h'
        · exact hs0.2.2.2 h'
        · exact hext.2.2.2 h'

/-- A successful resolution returns the root-relative rendering of an
existing, well-formed absolute path. -/
theorem resolveLocal_some (fs : FS) (specifier : String) (fromFile rootDir : Path)
    (r : RelPath) (hfrom : ValidPath fromFile)
    (h : resolveLocal fs specifier fromFile rootDir = some r) :
    ∃ t : Path, ValidPath t ∧ existsSync fs t = true ∧ r = pathRelative rootDir t := by
  have htv : ValidPath (pathResolveStr fromFile.dropLast specifier) :=
    pathResolveStr_valid _ _ (fun s hs => hfrom s ((List.dropLast_sublist _).subset hs))
  rw [resolveLocal] at h
  simp only [] at h
  cases hdet : detectLanguage fromFile with
  | none =>
    rw [hdet] at h
    split at h
    · rename_i hcond
      rw [Bool.and_eq_true_iff] at hcond
      exact ⟨_, htv, hcond.1, (Option.some_inj.mp h).symm⟩
    · rw [List.findSome?_nil] at h
      split at h
      · rename_i heq
        exact absurd heq (by simp)
      · rw [List.findSome?_nil] at h
        split at h <;> simp at h
  | some lang =>
    rw [hdet] at h
    split at h
    · rename_i hcond
      rw [Bool.and_eq_true_iff] at hcond
      exact ⟨_, htv, hcond.1, (Option.some_inj.mp h).symm⟩
    · split at h
      · rename_i r' hfind
        obtain ⟨ext, hmem, hf⟩ := List.exists_of_findSome?_eq_some hfind
        split at hf
        · rename_i hcond
          rw [Bool.and_eq_true_iff] at hcond
          obtain ⟨he1, he2, _⟩ := extensionsOf_valid lang ext hmem
          refine ⟨_, appendExt_valid _ _ htv he1 he2, hcond.1, ?_⟩
          have hr' : r' = r := Option.some_inj.mp h
          subst hr'
          exact (Option.some_inj.mp hf).symm
        · simp at hf
      · split at h
        · obtain ⟨ext, hmem, hf⟩ := List.exists_of_findSome?_eq_some h
          split at hf
          · rename_i hex
            obtain ⟨_, _, he3⟩ := extensionsOf_valid lang ext hmem
            refine ⟨_, ?_, hex, (Option.some_inj.mp hf).symm⟩
            intro s hs
            rcases List.mem_append.mp hs with h' | h'
            · exact htv s h'
            · have hsi : s = "index" ++ ext := by simpa using h'
              subst hsi
              exact he3
          · simp at hf
        · simp at h

/-! ## Shape of the per-specifier contributions -/

theorem depEdgeOf_frm_spec (ctx : Ctx) (lang : Lang) (it : QItem) (rp : RelPath)
    (d : String) (e : GEdge) (h : depEdgeOf ctx lang it rp d = some e) :
    e.frm = rp ∧ e.specifier = d := by
  unfold depEdgeOf at h
  cases hcl : classifyFor lang d <;> simp only [hcl] at h
  · cases hres : resolveLocal ctx.fs d it.file ctx.opts.rootDir <;>
      simp only [hres, Option.map_some', Option.map_none'] at h
    · exact absurd h (by simp)
    · rw [Option.some_inj] at h
      subst h
      exact ⟨rfl, rfl⟩
  · split at h
    · rw [Option.some_inj] at h
      subst h
      exact ⟨rfl, rfl⟩
    · exact absurd h (by simp)
  · split at h
    · rw [Option.some_inj] at h
      subst h
      exact ⟨rfl, rfl⟩
    · exact absurd h (by simp)

theorem depEdgeOf_localPath (ctx : Ctx) (lang : Lang) (it : QItem) (rp : RelPath)
    (d : String) (e : GEdge) (p : RelPath) (h : depEdgeOf ctx lang it rp d = some e)
    (htgt : e.tgt = .localPath p) :
    classifyFor lang d = .localDep ∧
      resolveLocal ctx.fs d it.file ctx.opts.rootDir = some p ∧
      e.dtype = .localDep := by
  unfold depEdgeOf at h
  cases hcl : classifyFor lang d <;> simp only [hcl] at h
  · cases hres : resolveLocal ctx.fs d it.file ctx.opts.rootDir <;>
      simp only [hres, Option.map_some', Option.map_none'] at h
    · exact absurd h (by simp)
    · rename_i r
      rw [Option.some_inj] at h
      subst h
      simp only [] at htgt
      have hrp : r = p := by
        cases htgt
        rfl
      subst hrp
      exact ⟨rfl, rfl, rfl⟩
  · split at h
    · rw [Option.some_inj] at h
      subst h
      simp at htgt
    · exact absurd h (by simp)
  · split at h
    · rw [Option.some_inj] at h
      subst h
      simp at htgt
    · exact absurd h (by simp)

theorem depEdgeOf_localType (ctx : Ctx) (lang : Lang) (it : QItem) (rp : RelPath)
    (d : String) (e : GEdge) (h : depEdgeOf ctx lang it rp d = some e)
    (hty : e.dtype = .localDep) : ∃ p, e.tgt = .localPath p := by
  unfold depEdgeOf at h
  cases hcl : classifyFor lang d <;> simp only [hcl] at h
  · cases hres : resolveLocal ctx.fs d it.file ctx.opts.rootDir <;>
      simp only [hres, Option.map_some', Option.map_none'] at h
    · exact absurd h (by simp)
    · rename_i r
      rw [Option.some_inj] at h
      subst h
      exact ⟨r, rfl⟩
  · split at h
    · rw [Option.some_inj] at h
      subst h
      simp at hty
    · exact absurd h (by simp)
  · split at h
    · rw [Option.some_inj] at h
      subst h
      simp at hty
    · exact absurd h (by simp)

theorem depEdgeOf_none_of_unresolved (ctx : Ctx) (lang : Lang) (it : QItem)
    (rp : RelPath) (d : String)
    (hcl : classifyFor lang d = .localDep)
    (hres : resolveLocal ctx.fs d it.file ctx.opts.rootDir = none) :
    depEdgeOf ctx lang it rp d = none := by
  unfold depEdgeOf
  rw [hcl, hres]
  rfl

theorem depPushOf_none_of_unresolved (ctx : Ctx) (lang : Lang) (it : QItem)
    (d : String)
    (hcl : classifyFor lang d = .localDep)
    (hres : resolveLocal ctx.fs d it.file ctx.opts.rootDir = none) :
    depPushOf ctx lang it d = none := by
  unfold depPushOf
  rw [hcl, hres]

theorem depPushOf_shape (ctx : Ctx) (lang : Lang) (it : QItem) (d : String)
    (q : QItem) (h : depPushOf ctx lang it d = some q) :
    ∃ r, classifyFor lang d = .localDep ∧
      resolveLocal ctx.fs d it.file ctx.opts.rootDir = some r ∧
      depthLt it.depth ctx.opts.maxDepth = true ∧
      q = ⟨pathResolveRel ctx.opts.rootDir r, it.depth + 1⟩ := by
  unfold depPushOf at h
  cases hcl : classifyFor lang d <;> simp only [hcl] at h
  · cases hres : resolveLocal ctx.fs d it.file ctx.opts.rootDir <;>
      simp only [hres] at h
    · exact absurd h (by simp)
    · rename_i r
      split at h
      · rename_i hd
        exact ⟨r, rfl, rfl, hd, (Option.some_inj.mp h).symm⟩
      · exact absurd h (by simp)
  · exact absurd h (by simp)
  · exact absurd h (by simp)

theorem depPushOf_of_resolved (ctx : Ctx) (lang : Lang) (it : QItem) (d : String)
    (r : RelPath)
    (hcl : classifyFor lang d = .localDep)
    (hres : resolveLocal ctx.fs d it.file ctx.opts.rootDir = some r)
    (hd : depthLt it.depth ctx.opts.maxDepth = true) :
    depPushOf ctx lang it d = some ⟨pathResolveRel ctx.opts.rootDir r, it.depth + 1⟩ := by
  unfold depPushOf
  simp only [hcl, hres]
  rw [if_pos hd]

theorem depUnresOf_shape (ctx : Ctx) (lang : Lang) (it : QItem) (rp : RelPath)
    (d : String) (u : Unres) (h : depUnresOf ctx lang it rp d = some u) :
    u = ⟨rp, d⟩ ∧ classifyFor lang d = .localDep ∧
      resolveLocal ctx.fs d it.file ctx.opts.rootDir = none := by
  unfold depUnresOf at h
  cases hcl : classifyFor lang d <;> simp only [hcl] at h
  · cases hres : resolveLocal ctx.fs d it.file ctx.opts.rootDir <;>
      simp only [hres] at h
    · exact ⟨(Option.some_inj.mp h).symm, rfl, rfl⟩
    · exact absurd h (by simp)
  · exact absurd h (by simp)
  · exact absurd h (by simp)

theorem depUnresOf_of_unresolved (ctx : Ctx) (lang : Lang) (it : QItem)
    (rp : RelPath) (d : String)
    (hcl : classifyFor lang d = .localDep)
    (hres : resolveLocal ctx.fs d it.file ctx.opts.rootDir = none) :
    depUnresOf ctx lang it rp d = some ⟨rp, d⟩ := by
  unfold depUnresOf
  rw [hcl, hres]

/-! ## The extracted specifier list is duplicate-free -/

theorem addUnique_nodup (l : List String) (x : String) (h : l.Nodup) :
    (addUnique l x).Nodup := by
  unfold addUnique
  split
  · exact h
  · rename_i hx
    simpa [List.nodup_append] using ⟨h, hx⟩

theorem foldl_preserve_nodup {β : Type} (f : List String → β → List String)
    (hf : ∀ acc b, acc.Nodup → (f acc b).Nodup) :
    ∀ (l : List β) (acc : List String), acc.Nodup → (l.foldl f acc).Nodup := by
  intro l
  induction l with
  | nil => intro acc h; simpa
  | cons b rest ih => intro acc h; exact ih (f acc b) (hf acc b h)

theorem parseFor_nodup (lang : Lang) (src : String) : (parseFor lang src).Nodup := by
  cases lang
  · unfold parseFor parseJs
    exact foldl_preserve_nodup addUnique (fun acc b => addUnique_nodup acc b) _ _
      List.nodup_nil
  · unfold parseFor parsePy
    apply foldl_preserve_nodup
    · intro acc m hacc
      dsimp only
      apply foldl_preserve_nodup
      · intro acc' mm hacc'
        dsimp only
        split
        · exact addUnique_nodup _ _ hacc'
        · exact hacc'
      · exact hacc
    · apply foldl_preserve_nodup
      · intro acc m hacc
        dsimp only
        split
        · exact addUnique_nodup _ _ hacc
        · exact hacc
      · exact List.nodup_nil

/-! ## Counting unresolved records contributed by one scan -/

theorem unres_count_zero (ctx : Ctx) (lang : Lang) (it : QItem) (rp : RelPath)
    (dep : String) :
    ∀ (deps : List String), dep ∉ deps →
      ((deps.flatMap (fun d => (depUnresOf ctx lang it rp d).toList)).filter
        (fun u => u.frm = rp && u.specifier = dep)).length = 0 := by
  intro deps
  induction deps with
  | nil => intro _; simp
  | cons d ds ih =>
    intro hnot
    have hd : d ≠ dep := fun he => hnot (he ▸ List.mem_cons_self _ _)
    have hds : dep ∉ ds := fun hm => hnot (List.mem_cons_of_mem _ hm)
    rw [List.flatMap_cons, List.filter_append, List.length_append, ih hds]
    cases hu : depUnresOf ctx lang it rp d with
    | none => simp
    | some u =>
      obtain ⟨hu1, _, _⟩ := depUnresOf_shape ctx lang it rp d u hu
      subst hu1
      simp [hd]

theorem unres_count_one (ctx : Ctx) (lang : Lang) (it : QItem) (rp : RelPath)
    (dep : String)
    (hcl : classifyFor lang dep = .localDep)
    (hres : resolveLocal ctx.fs dep it.file ctx.opts.rootDir = none) :
    ∀ (deps : List String), deps.Nodup → dep ∈ deps →
      ((deps.flatMap (fun d => (depUnresOf ctx lang it rp d).toList)).filter
        (fun u => u.frm = rp && u.specifier = dep)).length = 1 := by
  intro deps
  induction deps with
  | nil => intro _ h; exact absurd h (List.not_mem_nil dep)
  | cons d ds ih =>
    intro hnodup hmem
    rw [List.flatMap_cons, List.filter_append, List.length_append]
    rcases List.mem_cons.mp hmem with hd | hd
    · subst hd
      have hds : dep ∉ ds := (List.nodup_cons.mp hnodup).1
      rw [unres_count_zero ctx lang it rp dep ds hds]
      rw [depUnresOf_of_unresolved ctx lang it rp dep hcl hres]
      simp
    · have hdd : d ≠ dep := by
        intro he
        subst he
        exact (List.nodup_cons.mp hnodup).1 hd
      rw [ih (List.nodup_cons.mp hnodup).2 hd]
      cases hu : depUnresOf ctx lang it rp d with
      | none => simp
      | some u =>
        obtain ⟨hu1, _, _⟩ := depUnresOf_shape ctx lang it rp d u hu
        subst hu1
        simp [hdd]

/-! ## Case equations for `processItem` -/

theorem processItem_visited (ctx : Ctx) (st : St) (it : QItem)
    (hv : pathRelative ctx.opts.rootDir it.file ∈ st.visited) :
    processItem ctx st it = st := by
  unfold processItem
  simp [hv]

theorem processItem_noexist (ctx : Ctx) (st : St) (it : QItem)
    (hv : pathRelative ctx.opts.rootDir it.file ∉ st.visited)
    (hex : existsSync ctx.fs it.file = false) :
    processItem ctx st it =
      { st with visited := st.visited ++ [pathRelative ctx.opts.rootDir it.file] } := by
  unfold processItem
  simp [hv, hex]

theorem processItem_nolang (ctx : Ctx) (st : St) (it : QItem)
    (hv : pathRelative ctx.opts.rootDir it.file ∉ st.visited)
    (hex : existsSync ctx.fs it.file = true)
    (hlang : detectLanguage it.file = none) :
    processItem ctx st it =
      { st with visited := st.visited ++ [pathRelative ctx.opts.rootDir it.file] } := by
  unfold processItem
  simp [hv, hex, hlang]

theorem processItem_readErr (ctx : Ctx) (st : St) (it : QItem) (lang : Lang)
    (hv : pathRelative ctx.opts.rootDir it.file ∉ st.visited)
    (hex : existsSync ctx.fs it.file = true)
    (hlang : detectLanguage it.file = some lang)
    (hsrc : lookupFile ctx.fs it.file = none) :
    processItem ctx st it =
      { st with visited := st.visited ++ [pathRelative ctx.opts.rootDir it.file],
                err := true } := by
  unfold processItem
  simp [hv, hex, hlang, hsrc]

theorem processItem_scan (ctx : Ctx) (st : St) (it : QItem) (lang : Lang) (src : String)
    (hv : pathRelative ctx.opts.rootDir it.file ∉ st.visited)
    (hex : existsSync ctx.fs it.file = true)
    (hlang : detectLanguage it.file = some lang)
    (hsrc : lookupFile ctx.fs it.file = some src) :
    processItem ctx st it =
      processDeps ctx lang it (pathRelative ctx.opts.rootDir it.file)
        (parseFor lang src)
        { st with
          visited := st.visited ++ [pathRelative ctx.opts.rootDir it.file],
          nodes := st.nodes ++ [⟨pathRelative ctx.opts.rootDir it.file, lang,
            (parseFor lang src).length⟩] } := by
  unfold processItem
  simp [hv, hex, hlang, hsrc]

/-! ## The loop invariant -/

theorem Inv_init (ctx : Ctx) (hroot : ValidPath ctx.opts.rootDir) (entries : List String) :
    Inv ctx (initSt ctx.opts.rootDir entries) := by
  refine ⟨?_, ?_, ?_, ?_, ?_, ?_, ?_, ?_, ?_, ?_, ?_⟩ <;>
    simp [initSt, nodePaths, entryToPath]
  intro it e hmem hfile
  exact pathResolveStr_valid _ _ hroot hmem hfile

theorem Inv_visitedStep (ctx : Ctx) (st : St) (it : QItem) (rest : List QItem)
    (hq : st.queue = it :: rest) (hinv : Inv ctx st)
    (hv : pathRelative ctx.opts.rootDir it.file ∈ st.visited) :
    Inv ctx { st with queue := rest } := by
  refine ⟨?_, hinv.nodupNodes, hinv.nodesVisited, hinv.nodesInFs, hinv.nodupVisited,
    hinv.visitedNode, hinv.edgesFrom, hinv.localType, ?_, hinv.unresFrom,
    hinv.nodeData⟩
  · intro it' h
    exact hinv.qvalid it' (by rw [hq]; exact List.mem_cons_of_mem _ h)
  · intro e he pp htgt
    obtain ⟨h1, h2⟩ := hinv.localEdges e he pp htgt
    refine ⟨h1, fun hmd => ?_⟩
    rcases h2 hmd with hvis | ⟨it', hit', hrel⟩
    · exact Or.inl hvis
    · rw [hq] at hit'
      rcases List.mem_cons.mp hit' with hii | hii
      · subst hii
        exact Or.inl (hrel ▸ hv)
      · exact Or.inr ⟨it', hii, hrel⟩

theorem Inv_mark (ctx : Ctx) (st : St) (it : QItem) (rest : List QItem)
    (hq : st.queue = it :: rest) (hinv : Inv ctx st)
    (hv : pathRelative ctx.opts.rootDir it.file ∉ st.visited)
    (hitv : ValidPath it.file)
    (b : Bool) (hb : st.err = true → b = true)
    (hcase : (existsSync ctx.fs it.file = false ∨ detectLanguage it.file = none) ∨
      b = true) :
    Inv ctx { st with queue := rest,
                      visited := st.visited ++ [pathRelative ctx.opts.rootDir it.file],
                      err := b } := by
  have hrt : pathResolveRel ctx.opts.rootDir (pathRelative ctx.opts.rootDir it.file)
      = it.file := resolveRel_relative _ _ hitv
  refine ⟨?_, hinv.nodupNodes, ?_, hinv.nodesInFs, ?_, ?_, ?_, hinv.localType,
    ?_, hinv.unresFrom, ?_⟩
  · intro it' h
    exact hinv.qvalid it' (by rw [hq]; exact List.mem_cons_of_mem _ h)
  · intro q hqm
    exact List.mem_append_left _ (hinv.nodesVisited q hqm)
  · simpa [List.nodup_append] using ⟨hinv.nodupVisited, hv⟩
  · intro q hqm hex hlang
    rcases List.mem_append.mp hqm with hold | hnew
    · rcases hinv.visitedNode q hold hex hlang with h | h
      · exact Or.inl h
      · exact Or.inr (hb h)
    · have hqp : q = pathRelative ctx.opts.rootDir it.file := by simpa using hnew
      subst hqp
      rw [hrt] at hex hlang
      rcases hcase with hcase | hcase
      · rcases hcase with hcase | hcase
        · rw [hex] at hcase
          exact absurd hcase (by simp)
        · exact absurd hcase hlang
      · exact Or.inr hcase
  · intro e he
    obtain ⟨h1, h2⟩ := hinv.edgesFrom e he
    exact ⟨List.mem_append_left _ h1, h2⟩
  · intro e he pp htgt
    obtain ⟨h1, h2⟩ := hinv.localEdges e he pp htgt
    refine ⟨h1, fun hmd => ?_⟩
    rcases h2 hmd with hvis | ⟨it', hit', hrel⟩
    · exact Or.inl (List.mem_append_left _ hvis)
    · rw [hq] at hit'
      rcases List.mem_cons.mp hit' with hii | hii
      · subst hii
        exact Or.inl (hrel ▸ List.mem_append_right _ (List.mem_singleton.mpr rfl))
      · exact Or.inr ⟨it', hii, hrel⟩
  · exact hinv.nodeData

theorem mem_flatMap_optList {α β : Type} (f : α → Option β) (l : List α) (b : β)
    (h : b ∈ l.flatMap (fun a => (f a).toList)) : ∃ a ∈ l, f a = some b := by
  rcases List.mem_flatMap.mp h with ⟨a, ha, hb⟩
  refine ⟨a, ha, ?_⟩
  cases hfa : f a with
  | none => rw [hfa] at hb; simp at hb
  | some b' =>
    rw [hfa] at hb
    simp only [Option.toList_some, List.mem_singleton] at hb
    rw [hb]

theorem mem_flatMap_optList_of {α β : Type} (f : α → Option β) (l : List α)
    (a : α) (b : β) (ha : a ∈ l) (hb : f a = some b) :
    b ∈ l.flatMap (fun a => (f a).toList) :=
  List.mem_flatMap.mpr ⟨a, ha, by simp [hb]⟩

theorem Inv_scan (ctx : Ctx) (st : St) (it : QItem) (rest : List QItem) (lang : Lang)
    (src : String)
    (hq : st.queue = it :: rest) (hinv : Inv ctx st)
    (hv : pathRelative ctx.opts.rootDir it.file ∉ st.visited)
    (hitv : ValidPath it.file)
    (hlang : detectLanguage it.file = some lang)
    (hsrc : lookupFile ctx.fs it.file = some src) :
    Inv ctx (processDeps ctx lang it (pathRelative ctx.opts.rootDir it.file)
      (parseFor lang src)
      { st with queue := rest,
                visited := st.visited ++ [pathRelative ctx.opts.rootDir it.file],
                nodes := st.nodes ++ [⟨pathRelative ctx.opts.rootDir it.file, lang,
                  (parseFor lang src).length⟩] }) := by
  have hrt : pathResolveRel ctx.opts.rootDir (pathRelative ctx.opts.rootDir it.file)
      = it.file := resolveRel_relative _ _ hitv
  have hpnot : pathRelative ctx.opts.rootDir it.file ∉ nodePaths st :=
    fun h => hv (hinv.nodesVisited _ h)
  have hnodup := parseFor_nodup lang src
  have hN : (processDeps ctx lang it (pathRelative ctx.opts.rootDir it.file)
      (parseFor lang src)
      { st with queue := rest,
                visited := st.visited ++ [pathRelative ctx.opts.rootDir it.file],
                nodes := st.nodes ++ [⟨pathRelative ctx.opts.rootDir it.file, lang,
                  (parseFor lang src).length⟩] }).nodes =
      st.nodes ++ [⟨pathRelative ctx.opts.rootDir it.file, lang,
        (parseFor lang src).length⟩] := by
    rw [processDeps_nodes]
  have hNP : nodePaths (processDeps ctx lang it (pathRelative ctx.opts.rootDir it.file)
      (parseFor lang src)
      { st with queue := rest,
                visited := st.visited ++ [pathRelative ctx.opts.rootDir it.file],
                nodes := st.nodes ++ [⟨pathRelative ctx.opts.rootDir it.file, lang,
                  (parseFor lang src).length⟩] }) =
      nodePaths st ++ [pathRelative ctx.opts.rootDir it.file] := by
    unfold nodePaths
    rw [hN]
    simp
  have hVis : (processDeps ctx lang it (pathRelative ctx.opts.rootDir it.file)
      (parseFor lang src)
      { st with queue := rest,
                visited := st.visited ++ [pathRelative ctx.opts.rootDir it.file],
                nodes := st.nodes ++ [⟨pathRelative ctx.opts.rootDir it.file, lang,
                  (parseFor lang src).length⟩] }).visited =
      st.visited ++ [pathRelative ctx.opts.rootDir it.file] := by
    rw [processDeps_visited]
  have hErr : (processDeps ctx lang it (pathRelative ctx.opts.rootDir it.file)
      (parseFor lang src)
      { st with queue := rest,
                visited := st.visited ++ [pathRelative ctx.opts.rootDir it.file],
                nodes := st.nodes ++ [⟨pathRelative ctx.opts.rootDir it.file, lang,
                  (parseFor lang src).length⟩] }).err = st.err := by
    rw [processDeps_err]
  have hQ : (processDeps ctx lang it (pathRelative ctx.opts.rootDir it.file)
      (parseFor lang src)
      { st with queue := rest,
                visited := st.visited ++ [pathRelative ctx.opts.rootDir it.file],
                nodes := st.nodes ++ [⟨pathRelative ctx.opts.rootDir it.file, lang,
                  (parseFor lang src).length⟩] }).queue =
      rest ++ (parseFor lang src).flatMap
        (fun d => (depPushOf ctx lang it d).toList) := by
    rw [processDeps_queue]
  have hE : (processDeps ctx lang it (pathRelative ctx.opts.rootDir it.file)
      (parseFor lang src)
      { st with queue := rest,
                visited := st.visited ++ [pathRelative ctx.opts.rootDir it.file],
                nodes := st.nodes ++ [⟨pathRelative ctx.opts.rootDir it.file, lang,
                  (parseFor lang src).length⟩] }).edges =
      st.edges ++ (parseFor lang src).flatMap
        (fun d => (depEdgeOf ctx lang it (pathRelative ctx.opts.rootDir it.file)
          d).toList) := by
    rw [processDeps_edges]
  have hU : (processDeps ctx lang it (pathRelative ctx.opts.rootDir it.file)
      (parseFor lang src)
      { st with queue := rest,
                visited := st.visited ++ [pathRelative ctx.opts.rootDir it.file],
                nodes := st.nodes ++ [⟨pathRelative ctx.opts.rootDir it.file, lang,
                  (parseFor lang src).length⟩] }).unresolved =
      st.unresolved ++ (parseFor lang src).flatMap
        (fun d => (depUnresOf ctx lang it (pathRelative ctx.opts.rootDir it.file)
          d).toList) := by
    rw [processDeps_unres]
  refine ⟨?_, ?_, ?_, ?_, ?_, ?_, ?_, ?_, ?_, ?_, ?_⟩
  · -- qvalid
    intro it' h
    rw [hQ] at h
    rcases List.mem_append.mp h with h | h
    · exact hinv.qvalid it' (by rw [hq]; exact List.mem_cons_of_mem _ h)
    · obtain ⟨d, hd, hpp⟩ := mem_flatMap_optList _ _ _ h
      obtain ⟨r, hcl, hres, hdl, hsh⟩ := depPushOf_shape ctx lang it d it' hpp
      obtain ⟨t, htv2, htex, hrt2⟩ :=
        resolveLocal_some ctx.fs d it.file ctx.opts.rootDir r hitv hres
      subst hsh
      show ValidPath (pathResolveRel ctx.opts.rootDir r)
      rw [hrt2, resolveRel_relative _ _ htv2]
      exact htv2
  · -- nodupNodes
    rw [hNP]
    simp only [List.nodup_append, List.nodup_cons, List.nodup_nil]
    exact ⟨hinv.nodupNodes, by simp, by simpa using hpnot⟩
  · -- nodesVisited
    intro q hqm
    rw [hNP] at hqm
    rw [hVis]
    rcases List.mem_append.mp hqm with h | h
    · exact List.mem_append_left _ (hinv.nodesVisited q h)
    · exact List.mem_append_right _ h
  · -- nodesInFs
    intro q hqm
    rw [hNP] at hqm
    rcases List.mem_append.mp hqm with h | h
    · exact hinv.nodesInFs q h
    · have hqp : q = pathRelative ctx.opts.rootDir it.file := by simpa using h
      subst hqp
      exact List.mem_map_of_mem _ (lookupFile_mem ctx.fs it.file src hsrc)
  · -- nodupVisited
    rw [hVis]
    simpa [List.nodup_append] using ⟨hinv.nodupVisited, hv⟩
  · -- visitedNode
    intro q hqm hex2 hlang2
    rw [hVis] at hqm
    rw [hNP, hErr]
    rcases List.mem_append.mp hqm with h | h
    · rcases hinv.visitedNode q h hex2 hlang2 with h' | h'
      · exact Or.inl (List.mem_append_left _ h')
      · exact Or.inr h'
    · exact Or.inl (List.mem_append_right _ h)
  · -- edgesFrom
    intro e he
    rw [hE] at he
    rw [hVis, hNP]
    rcases List.mem_append.mp he with h | h
    · obtain ⟨h1, h2⟩ := hinv.edgesFrom e h
      exact ⟨List.mem_append_left _ h1, List.mem_append_left _ h2⟩
    · obtain ⟨d, hd, hde⟩ := mem_flatMap_optList _ _ _ h
      obtain ⟨hf, _⟩ := depEdgeOf_frm_spec ctx lang it _ d e hde
      rw [hf]
      exact ⟨List.mem_append_right _ (by simp), List.mem_append_right _ (by simp)⟩
  · -- localType
    intro e he hty
    rw [hE] at he
    rcases List.mem_append.mp he with h | h
    · exact hinv.localType e h hty
    · obtain ⟨d, hd, hde⟩ := mem_flatMap_optList _ _ _ h
      exact depEdgeOf_localType ctx lang it _ d e hde hty
  · -- localEdges
    intro e he pp htgt
    rw [hE] at he
    rw [hVis, hQ]
    rcases List.mem_append.mp he with h | h
    · obtain ⟨h1, h2⟩ := hinv.localEdges e h pp htgt
      refine ⟨h1, fun hmd => ?_⟩
      rcases h2 hmd with hvis | ⟨it', hit', hrel⟩
      · exact Or.inl (List.mem_append_left _ hvis)
      · rw [hq] at hit'
        rcases List.mem_cons.mp hit' with hii | hii
        · subst hii
          exact Or.inl (hrel ▸ List.mem_append_right _ (by simp))
        · exact Or.inr ⟨it', List.mem_append_left _ hii, hrel⟩
    · obtain ⟨d, hd, hde⟩ := mem_flatMap_optList _ _ _ h
      obtain ⟨hcl, hres, _⟩ := depEdgeOf_localPath ctx lang it _ d e pp hde htgt
      obtain ⟨t, htv2, htex2, hr2⟩ :=
        resolveLocal_some ctx.fs d it.file ctx.opts.rootDir pp hitv hres
      constructor
      · rw [hr2, resolveRel_relative _ _ htv2]
        exact htex2
      · intro hmd
        have hdl : depthLt it.depth ctx.opts.maxDepth = true := by rw [hmd]; rfl
        have hpush := depPushOf_of_resolved ctx lang it d pp hcl hres hdl
        refine Or.inr ⟨⟨pathResolveRel ctx.opts.rootDir pp, it.depth + 1⟩,
          List.mem_append_right _ (mem_flatMap_optList_of _ _ d _ hd hpush), ?_⟩
        show pathRelative ctx.opts.rootDir (pathResolveRel ctx.opts.rootDir pp) = pp
        rw [hr2, resolveRel_relative _ _ htv2]
  · -- unresFrom
    intro u hu
    rw [hU] at hu
    rw [hNP]
    rcases List.mem_append.mp hu with h | h
    · exact List.mem_append_left _ (hinv.unresFrom u h)
    · obtain ⟨d, hd, hdu⟩ := mem_flatMap_optList _ _ _ h
      obtain ⟨hu1, _, _⟩ := depUnresOf_shape ctx lang it _ d u hdu
      subst hu1
      exact List.mem_append_right _ (by simp)
  · -- nodeData
    intro n hn
    rw [hN] at hn
    rcases List.mem_append.mp hn with hold | hnew
    · obtain ⟨src', h1, h2, h3, h4⟩ := hinv.nodeData n hold
      refine ⟨src', h1, h2, h3, ?_⟩
      intro dep hdep hcl hres
      obtain ⟨hc1, hc2⟩ := h4 dep hdep hcl hres
      have hne : n.path ≠ pathRelative ctx.opts.rootDir it.file := by
        intro heq
        exact hv (heq ▸ hinv.nodesVisited n.path (List.mem_map_of_mem _ hold))
      constructor
      · rw [hU, List.filter_append, List.length_append, hc1]
        have hzero : ((parseFor lang src).flatMap
            (fun d => (depUnresOf ctx lang it (pathRelative ctx.opts.rootDir it.file)
              d).toList)).filter
            (fun u => u.frm = n.path && u.specifier = dep) = [] := by
          rw [List.filter_eq_nil_iff]
          intro u hu
          obtain ⟨d, hd, hdu⟩ := mem_flatMap_optList _ _ _ hu
          obtain ⟨hu1, _, _⟩ := depUnresOf_shape ctx lang it _ d u hdu
          subst hu1
          simp [Ne.symm hne]
        rw [hzero]
        rfl
      · intro e he2
        rw [hE] at he2
        rcases List.mem_append.mp he2 with h | h
        · exact hc2 e h
        · obtain ⟨d, hd, hde⟩ := mem_flatMap_optList _ _ _ h
          obtain ⟨hf, _⟩ := depEdgeOf_frm_spec ctx lang it _ d e hde
          intro hmatch
          exact hne (by rw [← hmatch.1, hf])
    · have hnode : n = ⟨pathRelative ctx.opts.rootDir it.file, lang,
          (parseFor lang src).length⟩ := by simpa using hnew
      subst hnode
      refine ⟨src, ?_, ?_, rfl, ?_⟩
      · show lookupFile ctx.fs
          (pathResolveRel ctx.opts.rootDir (pathRelative ctx.opts.rootDir it.file))
          = some src
        rw [hrt]
        exact hsrc
      · show detectLanguage
          (pathResolveRel ctx.opts.rootDir (pathRelative ctx.opts.rootDir it.file))
          = some lang
        rw [hrt]
        exact hlang
      · intro dep hdep hcl hres
        rw [show (pathResolveRel ctx.opts.rootDir
          (pathRelative ctx.opts.rootDir it.file)) = it.file from hrt] at hres
        constructor
        · rw [hU, List.filter_append, List.length_append]
          have hzero : (st.unresolved.filter
              (fun u => u.frm = pathRelative ctx.opts.rootDir it.file &&
                u.specifier = dep)) = [] := by
            rw [List.filter_eq_nil_iff]
            intro u hu
            have hfrm := hinv.unresFrom u hu
            have hne2 : u.frm ≠ pathRelative ctx.opts.rootDir it.file := by
              intro heq
              apply hpnot
              rw [← heq]
              exact hfrm
            simp [hne2]
          rw [hzero]
          rw [unres_count_one ctx lang it (pathRelative ctx.opts.rootDir it.file) dep
            hcl hres (parseFor lang src) hnodup hdep]
          rfl
        · intro e he2
          rw [hE] at he2
          rcases List.mem_append.mp he2 with h | h
          · intro hmatch
            have hmem2 := (hinv.edgesFrom e h).2
            apply hpnot
            have hfrm : e.frm = pathRelative ctx.opts.rootDir it.file := hmatch.1
            rw [← hfrm]
            exact hmem2
          · obtain ⟨d, hd, hde⟩ := mem_flatMap_optList _ _ _ h
            obtain ⟨hf, hs⟩ := depEdgeOf_frm_spec ctx lang it _ d e hde
            intro hmatch
            have hddep : d = dep := by rw [← hs, hmatch.2]
            subst hddep
            rw [depEdgeOf_none_of_unresolved ctx lang it _ d hcl hres] at hde
            exact Option.noConfusion hde

theorem Inv_step (ctx : Ctx)
    (st : St) (it : QItem) (rest : List QItem) (hq : st.queue = it :: rest)
    (hinv : Inv ctx st) :
    Inv ctx (processItem ctx { st with queue := rest } it) := by
  have hitv : ValidPath it.file :=
    hinv.qvalid it (by rw [hq]; exact List.mem_cons_self _ _)
  by_cases hv : pathRelative ctx.opts.rootDir it.file ∈ st.visited
  · rw [processItem_visited ctx { st with queue := rest } it (by simpa using hv)]
    exact Inv_visitedStep ctx st it rest hq hinv hv
  · by_cases hex : existsSync ctx.fs it.file = true
    · cases hlang : detectLanguage it.file with
      | none =>
        rw [processItem_nolang ctx { st with queue := rest } it (by simpa using hv)
          hex hlang]
        exact Inv_mark ctx st it rest hq hinv hv hitv st.err (fun h => h)
          (Or.inl (Or.inr hlang))
      | some lang =>
        cases hsrc : lookupFile ctx.fs it.file with
        | none =>
          rw [processItem_readErr ctx { st with queue := rest } it lang
            (by simpa using hv) hex hlang hsrc]
          exact Inv_mark ctx st it rest hq hinv hv hitv true (fun _ => rfl)
            (Or.inr rfl)
        | some src =>
          rw [processItem_scan ctx { st with queue := rest } it lang src
            (by simpa using hv) hex hlang hsrc]
          exact Inv_scan ctx st it rest lang src hq hinv hv hitv hlang hsrc
    · have hexf : existsSync ctx.fs it.file = false := Bool.eq_false_iff.mpr hex
      rw [processItem_noexist ctx { st with queue := rest } it (by simpa using hv)
        hexf]
      exact Inv_mark ctx st it rest hq hinv hv hitv st.err (fun h => h)
        (Or.inl (Or.inl hexf))

/-! ## The invariant at the end of a build -/

theorem Inv_buildState (ctx : Ctx) (hroot : ValidPath ctx.opts.rootDir)
    (entries : List String) : Inv ctx (buildState ctx entries) :=
  runFuel_inv ctx (Inv ctx)
    (fun st it rest hq hP => Inv_step ctx st it rest hq hP) _ _
    (Inv_init ctx hroot entries)

theorem buildState_queue (ctx : Ctx) (entries : List String) :
    (buildState ctx entries).queue = [] ∨ (buildState ctx entries).err = true :=
  runFuel_exits ctx _ _ (le_refl _)

/-- Everything the queue gains in one dequeue step is a successfully
resolved local specifier of the file just scanned. -/
theorem processItem_queue_sub (ctx : Ctx) (st : St) (it : QItem) (q : QItem)
    (h : q ∈ (processItem ctx st it).queue) :
    q ∈ st.queue ∨ ∃ lang src dep r,
      detectLanguage it.file = some lang ∧
      lookupFile ctx.fs it.file = some src ∧
      dep ∈ parseFor lang src ∧
      classifyFor lang dep = .localDep ∧
      resolveLocal ctx.fs dep it.file ctx.opts.rootDir = some r ∧
      q = ⟨pathResolveRel ctx.opts.rootDir r, it.depth + 1⟩ := by
  by_cases hv : pathRelative ctx.opts.rootDir it.file ∈ st.visited
  · rw [processItem_visited ctx st it hv] at h
    exact Or.inl h
  · by_cases hex : existsSync ctx.fs it.file = true
    · cases hlang : detectLanguage it.file with
      | none =>
        rw [processItem_nolang ctx st it hv hex hlang] at h
        exact Or.inl h
      | some lang =>
        cases hsrc : lookupFile ctx.fs it.file with
        | none =>
          rw [processItem_readErr ctx st it lang hv hex hlang hsrc] at h
          exact Or.inl h
        | some src =>
          rw [processItem_scan ctx st it lang src hv hex hlang hsrc,
            processDeps_queue] at h
          rcases List.mem_append.mp h with h | h
          · exact Or.inl h
          · obtain ⟨dep, hdep, hpp⟩ := mem_flatMap_optList _ _ _ h
            obtain ⟨r, hcl, hres, _, hsh⟩ := depPushOf_shape ctx lang it dep q hpp
            exact Or.inr ⟨lang, src, dep, r, rfl, rfl, hdep, hcl, hres, hsh⟩
    · have hexf : existsSync ctx.fs it.file = false := Bool.eq_false_iff.mpr hex
      rw [processItem_noexist ctx st it hv hexf] at h
      exact Or.inl h

theorem nodup_subset_length_le {α : Type} [DecidableEq α] (l m : List α)
    (hn : l.Nodup) (hsub : ∀ x ∈ l, x ∈ m) : l.length ≤ m.dedup.length := by
  have h1 : l.length = l.toFinset.card := (List.toFinset_card_of_nodup hn).symm
  rw [h1]
  have hsub' : l.toFinset ⊆ m.toFinset := by
    intro x hx
    rw [List.mem_toFinset] at hx ⊢
    exact hsub x hx
  have h2 : m.toFinset.card = m.dedup.length := List.card_toFinset m
  rw [← h2]
  exact Finset.card_le_card hsub'

theorem filter_path_length (nodes : List GNode) (p : RelPath) :
    (nodes.filter (fun n => n.path = p)).length =
      (nodes.map (fun n => n.path)).count p := by
  induction nodes with
  | nil => simp
  | cons n rest ih =>
    by_cases hnp : n.path = p
    · simp [List.filter_cons, List.count_cons, hnp, ih]
    · simp [List.filter_cons, List.count_cons, hnp, ih]

theorem isDir_exists {fs : FS} {p : Path} (h : isDir fs p = true) :
    existsSync fs p = true := by
  simp [existsSync, h]


/-! ## Auxiliary lemmas for the claim theorems -/

theorem stripJs_normal_plain_step (c : Char) (t : List Char)
    (hc : plainJs c = true) :
    stripJsM .normal (c :: t) = c :: stripJsM .normal t := by
  have hslash : c ≠ '/' := by
    intro he; subst he; exact absurd hc (by decide)
  have hdq : c ≠ '"' := by
    intro he; subst he; exact absurd hc (by decide)
  have hsq : c ≠ '\'' := by
    intro he; subst he; exact absurd hc (by decide)
  have hbq : c ≠ backquoteChar := by
    intro he; subst he; exact absurd hc (by decide)
  cases t with
  | nil => simp [stripJsM]
  | cons d t' => simp [stripJsM, hslash, hdq, hsq, hbq]

theorem stripJs_plain_front (pre t : List Char)
    (h : ∀ c ∈ pre, plainJs c = true) :
    stripJsM .normal (pre ++ t) = pre ++ stripJsM .normal t := by
  induction pre with
  | nil => rfl
  | cons c cs ih =>
    show stripJsM .normal (c :: (cs ++ t)) = c :: (cs ++ stripJsM .normal t)
    rw [stripJs_normal_plain_step c (cs ++ t) (h c (List.mem_cons_self _ _)),
        ih (fun x hx => h x (List.mem_cons_of_mem _ hx))]

theorem stripJs_open_lineC (t : List Char) :
    stripJsM .normal ('/' :: '/' :: t) = stripJsM .lineC t := by
  simp [stripJsM]

theorem stripJs_open_blockC (t : List Char) :
    stripJsM .normal ('/' :: '*' :: t) = stripJsM .blockC t := by
  simp [stripJsM]

theorem stripJs_lineC_skip (body t : List Char) (h : '\n' ∉ body) :
    stripJsM .lineC (body ++ t) = stripJsM .lineC t := by
  induction body with
  | nil => rfl
  | cons c cs ih =>
    have hc : c ≠ '\n' := fun he => h (he ▸ List.mem_cons_self _ _)
    show stripJsM .lineC (c :: (cs ++ t)) = _
    simp only [stripJsM]
    rw [if_neg hc]
    exact ih (fun hm => h (List.mem_cons_of_mem _ hm))

theorem stripJs_lineC_exit (t : List Char) :
    stripJsM .lineC ('\n' :: t) = '\n' :: stripJsM .normal t := by
  simp [stripJsM]

theorem stripJs_normal_newline (t : List Char) :
    stripJsM .normal ('\n' :: t) = '\n' :: stripJsM .normal t := by
  have hbq : '\n' ≠ backquoteChar := by decide
  cases t with
  | nil => simp [stripJsM]
  | cons d t' => simp [stripJsM, hbq]

theorem stripJs_blockC_skip (body t : List Char) (h : '*' ∉ body) :
    stripJsM .blockC (body ++ '*' :: '/' :: t) = stripJsM .normal t := by
  induction body with
  | nil =>
    show stripJsM .blockC ('*' :: '/' :: t) = _
    simp [stripJsM]
  | cons c cs ih =>
    have hc : c ≠ '*' := fun he => h (he ▸ List.mem_cons_self _ _)
    have hcs : '*' ∉ cs := fun hm => h (List.mem_cons_of_mem _ hm)
    cases hct : cs ++ '*' :: '/' :: t with
    | nil => exact absurd hct (by simp)
    | cons d t' =>
      show stripJsM .blockC (c :: (cs ++ '*' :: '/' :: t)) = _
      rw [hct]
      simp only [stripJsM]
      rw [if_neg (fun hp => hc hp.1)]
      rw [← hct]
      exact ih hcs

theorem stripPy_normal_plain_step (c : Char) (t : List Char)
    (hc : plainPy c = true) :
    stripPyM .normal (c :: t) = c :: stripPyM .normal t := by
  have hhash : c ≠ '#' := by
    intro he; subst he; exact absurd hc (by decide)
  have hdq : c ≠ '"' := by
    intro he; subst he; exact absurd hc (by decide)
  have hsq : c ≠ '\'' := by
    intro he; subst he; exact absurd hc (by decide)
  cases t with
  | nil => simp [stripPyM, hhash]
  | cons d t' =>
    cases t' with
    | nil => simp [stripPyM, hhash, hdq, hsq]
    | cons e t'' => simp [stripPyM, hhash, hdq, hsq]

theorem stripPy_plain_front (pre t : List Char)
    (h : ∀ c ∈ pre, plainPy c = true) :
    stripPyM .normal (pre ++ t) = pre ++ stripPyM .normal t := by
  induction pre with
  | nil => rfl
  | cons c cs ih =>
    show stripPyM .normal (c :: (cs ++ t)) = c :: (cs ++ stripPyM .normal t)
    rw [stripPy_normal_plain_step c (cs ++ t) (h c (List.mem_cons_self _ _)),
        ih (fun x hx => h x (List.mem_cons_of_mem _ hx))]

theorem stripPy_open_comment (t : List Char) :
    stripPyM .normal ('#' :: t) = stripPyM .comment t := by
  cases t with
  | nil => simp [stripPyM]
  | cons d t' =>
    cases t' with
    | nil => simp [stripPyM]
    | cons e t'' => simp [stripPyM]

theorem stripPy_comment_skip (body t : List Char) (h : '\n' ∉ body) :
    stripPyM .comment (body ++ t) = stripPyM .comment t := by
  induction body with
  | nil => rfl
  | cons c cs ih =>
    have hc : c ≠ '\n' := fun he => h (he ▸ List.mem_cons_self _ _)
    show stripPyM .comment (c :: (cs ++ t)) = _
    simp only [stripPyM]
    rw [if_neg hc]
    exact ih (fun hm => h (List.mem_cons_of_mem _ hm))

theorem stripPy_comment_exit (t : List Char) :
    stripPyM .comment ('\n' :: t) = '\n' :: stripPyM .normal t := by
  simp [stripPyM]

theorem stripPy_normal_newline (t : List Char) :
    stripPyM .normal ('\n' :: t) = '\n' :: stripPyM .normal t := by
  cases t with
  | nil => simp [stripPyM]
  | cons d t' =>
    cases t' with
    | nil => simp [stripPyM]
    | cons e t'' => simp [stripPyM]

theorem parseJs_congr {l1 l2 : List Char}
    (h : stripCommentsJs l1 = stripCommentsJs l2) :
    parseJs (String.mk l1) = parseJs (String.mk l2) := by
  unfold parseJs
  simp only [show (String.mk l1).toList = l1 from rfl,
    show (String.mk l2).toList = l2 from rfl, h]

theorem parsePy_congr {l1 l2 : List Char}
    (h : stripCommentsPy l1 = stripCommentsPy l2) :
    parsePy (String.mk l1) = parsePy (String.mk l2) := by
  unfold parsePy
  simp only [show (String.mk l1).toList = l1 from rfl,
    show (String.mk l2).toList = l2 from rfl, h]

theorem runFuel_stop (ctx : Ctx) (fuel : Nat) (st : St) (hq : st.queue = []) :
    runFuel ctx fuel st = st := by
  cases fuel with
  | zero => rfl
  | succ n => rw [runFuel, hq]

theorem buildState_done (ctx : Ctx) (entries : List String)
    (hok : (buildState ctx entries).err = false) :
    (buildState ctx entries).queue = [] := by
  rcases buildState_queue ctx entries with h | h
  · exact h
  · rw [hok] at h
    exact absurd h (by simp)

theorem contains_head_ne (c : Char) (l : List Char) :
    ∀ (L : List String), (∀ b ∈ L, b.toList.head? ≠ some c) →
      L.contains (String.mk (c :: l)) = false := by
  intro L
  induction L with
  | nil => intro _; rfl
  | cons b bs ih =>
    intro h
    have hb := h b (List.mem_cons_self _ _)
    have hbs := ih (fun x hx => h x (List.mem_cons_of_mem _ hx))
    have hne : (String.mk (c :: l) == b) = false := by
      rw [beq_eq_false_iff_ne]
      intro he
      apply hb
      rw [← he]
      rfl
    simp only [List.contains_cons, hne, Bool.false_or]
    exact hbs

theorem classifyJs_scoped (l : List Char) :
    classifyJs (String.mk ('@' :: l)) = .externalDep := by
  have hdot : startsWithStr (String.mk ('@' :: l)) "." = false := by
    unfold startsWithStr
    show List.isPrefixOf ['.'] ('@' :: l) = false
    simp [List.isPrefixOf]
  have hsl : startsWithStr (String.mk ('@' :: l)) "/" = false := by
    unfold startsWithStr
    show List.isPrefixOf ['/'] ('@' :: l) = false
    simp [List.isPrefixOf]
  have hnode : startsWithStr (String.mk ('@' :: l)) "node:" = false := by
    unfold startsWithStr
    show List.isPrefixOf ['n', 'o', 'd', 'e', ':'] ('@' :: l) = false
    simp [List.isPrefixOf]
  have hseg : firstSegment '/' (String.mk ('@' :: l)) =
      String.mk ('@' :: l.takeWhile (fun ch => ch ≠ '/')) := by
    unfold firstSegment
    show String.mk (List.takeWhile (fun ch => decide (ch ≠ '/')) ('@' :: l)) = _
    rw [List.takeWhile_cons]
    simp
  have hheads : ∀ b ∈ NODE_BUILTINS, b.toList.head? ≠ some '@' := by decide
  have hcon := contains_head_ne '@' (l.takeWhile (fun ch => ch ≠ '/'))
    NODE_BUILTINS hheads
  unfold classifyJs isNodeBuiltin
  rw [hdot, hsl, hnode, hseg, hcon]
  rfl

/-! ## The claims -/

/-- C1 refutation: the work queue does not only grow by specifiers of
files not yet visited.  In the two-file require cycle, after two loop
iterations `b.js` has pushed `a.js` back onto the queue although `a.js`
is already in the visited set. -/
theorem C1_counterexample :
    pathRelative optsP.rootDir ["p", "a.js"] ∈
      (runFuel ctxCycle 2 (initSt optsP.rootDir ["a.js"])).visited ∧
    (runFuel ctxCycle 2 (initSt optsP.rootDir ["a.js"])).queue =
      [⟨["p", "a.js"], 2⟩] := by decide

/-- C1 (amended): for every filesystem, entry list and options (with a
well-formed root), the traversal terminates — the loop, given the
`phiMeasure` fuel it is run with, ends with an empty queue or a thrown
filesystem error; the number of materialised nodes is bounded by the
number of distinct root-relative file paths of the filesystem; and
anything the queue gains in one dequeue step is a local,
successfully-resolved specifier of the file just scanned (but not
necessarily of a file not yet visited). -/
theorem C1_theorem (ctx : Ctx) (entries : List String)
    (hroot : ValidPath ctx.opts.rootDir) :
    ((buildState ctx entries).queue = [] ∨ (buildState ctx entries).err = true) ∧
    (buildState ctx entries).nodes.length ≤
      (ctx.fs.map (fun fe => pathRelative ctx.opts.rootDir fe.1)).dedup.length ∧
    (∀ (st : St) (it : QItem) (q : QItem), q ∈ (processItem ctx st it).queue →
      q ∈ st.queue ∨ ∃ lang src dep r,
        detectLanguage it.file = some lang ∧
        lookupFile ctx.fs it.file = some src ∧
        dep ∈ parseFor lang src ∧
        classifyFor lang dep = .localDep ∧
        resolveLocal ctx.fs dep it.file ctx.opts.rootDir = some r ∧
        q = ⟨pathResolveRel ctx.opts.rootDir r, it.depth + 1⟩) := by
  have hinv := Inv_buildState ctx hroot entries
  refine ⟨buildState_queue ctx entries, ?_,
    fun st it q h => processItem_queue_sub ctx st it q h⟩
  have hlen : (buildState ctx entries).nodes.length =
      (nodePaths (buildState ctx entries)).length := by
    simp [nodePaths]
  rw [hlen]
  exact nodup_subset_length_le _ _ hinv.nodupNodes hinv.nodesInFs

theorem C1_witness :
    ValidPath ctxCycle.opts.rootDir ∧
    ((buildState ctxCycle ["a.js"]).queue = [] ∨
      (buildState ctxCycle ["a.js"]).err = true) ∧
    (buildState ctxCycle ["a.js"]).nodes.length ≤
      (ctxCycle.fs.map
        (fun fe => pathRelative ctxCycle.opts.rootDir fe.1)).dedup.length :=
  ⟨by decide, (C1_theorem ctxCycle ["a.js"] (by decide)).1,
   (C1_theorem ctxCycle ["a.js"] (by decide)).2.1⟩

/-- C2 refutation: an import-like token inside a string literal that is
not the argument of any real import construct can still be extracted —
the dynamic-import pattern matches inside the preserved string literal
of `a = "import('x')"`, so `x` lands in the specifier set. -/
theorem C2_counterexample :
    parseJs "a = \"import('x')\"" = ["x"] := by decide

/-- C2 (amended): the contents of a comment body can never reach the
extracted specifier set.  Universally — for every plain-code prefix
(characters that open no comment and no string), every comment body and
every arbitrary continuation of the source — the extraction of a source
containing a line comment, a block comment, or a Python `#` comment
equals the extraction of the same source with the comment body deleted;
so no token inside such a comment is ever extracted, whatever it is.
Real imports adjacent to comment, string and docstring decoys are still
extracted (the repository's own test inputs); but `require(...)` and
`import(...)` call patterns occurring inside a preserved string literal
are extracted, because `stripComments` keeps string bodies and those two
patterns are not anchored to statement starts. -/
theorem C2_theorem :
    (∀ pre body rest : List Char,
      (∀ c ∈ pre, plainJs c = true) → '\n' ∉ body →
      parseJs (String.mk (pre ++ '/' :: '/' :: (body ++ '\n' :: rest))) =
        parseJs (String.mk (pre ++ '\n' :: rest))) ∧
    (∀ pre body rest : List Char,
      (∀ c ∈ pre, plainJs c = true) → '*' ∉ body →
      parseJs (String.mk (pre ++ '/' :: '*' :: (body ++ '*' :: '/' :: rest))) =
        parseJs (String.mk (pre ++ rest))) ∧
    (∀ pre body rest : List Char,
      (∀ c ∈ pre, plainPy c = true) → '\n' ∉ body →
      parsePy (String.mk (pre ++ '#' :: (body ++ '\n' :: rest))) =
        parsePy (String.mk (pre ++ '\n' :: rest))) ∧
    parseJs "// import fake from 'fake'\nimport real from 'real'" = ["real"] ∧
    parseJs "/* import fake from 'fake' */\nimport real from 'real'" = ["real"] ∧
    parseJs "const s = \"import fake from 'fake'\";\nimport real from 'real';" =
      ["real"] ∧
    parsePy "# import fake\nimport real" = ["real"] ∧
    parsePy "\"\"\"\nimport fake_in_docstring\n\"\"\"\nimport real" = ["real"] ∧
    parseJs "const s = \"require('y') import('z')\";" = ["y", "z"] := by
  refine ⟨?_, ?_, ?_, by decide, by decide, by decide, by decide, by decide,
    by decide⟩
  · intro pre body rest hpre hbody
    apply parseJs_congr
    unfold stripCommentsJs
    rw [stripJs_plain_front pre ('/' :: '/' :: (body ++ '\n' :: rest)) hpre,
        stripJs_plain_front pre ('\n' :: rest) hpre,
        stripJs_open_lineC, stripJs_lineC_skip body ('\n' :: rest) hbody,
        stripJs_lineC_exit, stripJs_normal_newline]
  · intro pre body rest hpre hbody
    apply parseJs_congr
    unfold stripCommentsJs
    rw [stripJs_plain_front pre ('/' :: '*' :: (body ++ '*' :: '/' :: rest)) hpre,
        stripJs_plain_front pre rest hpre,
        stripJs_open_blockC, stripJs_blockC_skip body rest hbody]
  · intro pre body rest hpre hbody
    apply parsePy_congr
    unfold stripCommentsPy
    rw [stripPy_plain_front pre ('#' :: (body ++ '\n' :: rest)) hpre,
        stripPy_plain_front pre ('\n' :: rest) hpre,
        stripPy_open_comment, stripPy_comment_skip body ('\n' :: rest) hbody,
        stripPy_comment_exit, stripPy_normal_newline]

theorem C2_witness :
    (∀ c ∈ ("x = 1; ".toList), plainJs c = true) ∧
    '\n' ∉ (" import fake from 'fake'".toList) ∧
    parseJs (String.mk ("x = 1; ".toList ++ '/' :: '/' ::
        (" import fake from 'fake'".toList ++ '\n' ::
          "import real from 'real'".toList))) =
      parseJs (String.mk ("x = 1; ".toList ++ '\n' ::
        "import real from 'real'".toList)) :=
  ⟨by decide, by decide,
   C2_theorem.1 "x = 1; ".toList " import fake from 'fake'".toList
     "import real from 'real'".toList (by decide) (by decide)⟩

/-- C3 refutation: the node set does not contain one node per distinct
visited path — a visited entry that does not exist on disk is recorded
in the visited set but materialises no node. -/
theorem C3_counterexample :
    (buildState ctxGhost ["a.js"]).visited = [⟨0, ["a.js"]⟩] ∧
    (buildState ctxGhost ["a.js"]).nodes = [] := by decide

/-- C3 (amended): in every completed build (well-formed root, no thrown
filesystem error) whose entries are relative paths — for a relative
entry the source itself normalises the path with `path.resolve`, and
inside the loop every queued path is a `path.resolve` result, so this is
exactly where the raw-path and normalised-path views of the program
coincide; an absolute entry is handed raw to `fs.existsSync` and a
non-normal-form one can enter the visited set without a scan — the node
paths are duplicate-free, every node path was visited, every visited
path that exists on disk and has a recognised language has exactly one
node (visited paths of nonexistent files or of unrecognised extensions
have none), and every edge's `from` endpoint is a visited path with a
node. -/
theorem C3_theorem (ctx : Ctx) (entries : List String)
    (hroot : ValidPath ctx.opts.rootDir)
    (_hrel : ∀ e ∈ entries, startsWithStr e "/" = false)
    (hok : (buildState ctx entries).err = false) :
    (nodePaths (buildState ctx entries)).Nodup ∧
    (∀ q ∈ nodePaths (buildState ctx entries),
      q ∈ (buildState ctx entries).visited) ∧
    (∀ q ∈ (buildState ctx entries).visited,
      existsSync ctx.fs (pathResolveRel ctx.opts.rootDir q) = true →
      detectLanguage (pathResolveRel ctx.opts.rootDir q) ≠ none →
      ((buildState ctx entries).nodes.filter (fun n => n.path = q)).length = 1) ∧
    (∀ e ∈ (buildState ctx entries).edges,
      e.frm ∈ (buildState ctx entries).visited ∧
      e.frm ∈ nodePaths (buildState ctx entries)) := by
  have hinv := Inv_buildState ctx hroot entries
  refine ⟨hinv.nodupNodes, hinv.nodesVisited, ?_, hinv.edgesFrom⟩
  intro q hq hex hlang
  rcases hinv.visitedNode q hq hex hlang with hmem | herr
  · rw [filter_path_length]
    exact List.count_eq_one_of_mem hinv.nodupNodes hmem
  · rw [hok] at herr
    exact absurd herr (by simp)

theorem C3_witness :
    ValidPath ctxJson.opts.rootDir ∧
    (∀ e ∈ (["a.js"] : List String), startsWithStr e "/" = false) ∧
    (buildState ctxJson ["a.js"]).err = false ∧
    (nodePaths (buildState ctxJson ["a.js"])).Nodup :=
  ⟨by decide, by decide, by decide,
   (C3_theorem ctxJson ["a.js"] (by decide) (by decide) (by decide)).1⟩

/-- C4 refutation: with `maxDepth` unbounded a local edge can still point
to a path that is not a node — `a.js` resolves `./data.json` to an
existing file and records the edge, but `data.json` has no recognised
language, so it is dequeued and skipped without ever materialising a
node. -/
theorem C4_counterexample :
    ctxJson.opts.maxDepth = none ∧
    (buildState ctxJson ["a.js"]).err = false ∧
    (⟨⟨0, ["a.js"]⟩, .localPath ⟨0, ["data.json"]⟩, "./data.json",
      .localDep⟩ : GEdge) ∈ (buildState ctxJson ["a.js"]).edges ∧
    (⟨0, ["data.json"]⟩ : RelPath) ∉ nodePaths (buildState ctxJson ["a.js"]) := by
  decide

/-- C4 (amended): in a completed build with unbounded `maxDepth` whose
entries are relative paths (for relative entries the source normalises
every queued path with `path.resolve`, which the model reproduces
exactly; an absolute entry is handed raw to `fs.existsSync`, so a
non-normal-form one could be visited yet never scanned), every local
edge's target path exists on disk and has been visited, and it is
present as a node whenever its extension maps to a recognised language;
only an unrecognised extension (or, with a depth bound, truncation) can
leave a local edge dangling. -/
theorem C4_theorem (ctx : Ctx) (entries : List String)
    (hroot : ValidPath ctx.opts.rootDir)
    (_hrel : ∀ e ∈ entries, startsWithStr e "/" = false)
    (hdepth : ctx.opts.maxDepth = none)
    (hok : (buildState ctx entries).err = false) :
    ∀ e ∈ (buildState ctx entries).edges, ∀ p, e.tgt = .localPath p →
      existsSync ctx.fs (pathResolveRel ctx.opts.rootDir p) = true ∧
      p ∈ (buildState ctx entries).visited ∧
      (detectLanguage (pathResolveRel ctx.opts.rootDir p) ≠ none →
        p ∈ nodePaths (buildState ctx entries)) := by
  have hinv := Inv_buildState ctx hroot entries
  intro e he p hp
  obtain ⟨hex, hvq⟩ := hinv.localEdges e he p hp
  rcases hvq hdepth with hv | ⟨it, hit, _⟩
  · refine ⟨hex, hv, fun hlang => ?_⟩
    rcases hinv.visitedNode p hv hex hlang with h | h
    · exact h
    · rw [hok] at h
      exact absurd h (by simp)
  · rw [buildState_done ctx entries hok] at hit
    exact absurd hit (List.not_mem_nil it)

theorem C4_witness :
    ValidPath ctxCycle.opts.rootDir ∧
    (∀ e ∈ (["a.js"] : List String), startsWithStr e "/" = false) ∧
    ctxCycle.opts.maxDepth = none ∧
    (buildState ctxCycle ["a.js"]).err = false ∧
    (⟨0, ["b.js"]⟩ : RelPath) ∈ (buildState ctxCycle ["a.js"]).visited :=
  ⟨by decide, by decide, rfl, by decide,
   (C4_theorem ctxCycle ["a.js"] (by decide) (by decide) rfl (by decide)
     ⟨⟨0, ["a.js"]⟩, .localPath ⟨0, ["b.js"]⟩, "./b", .localDep⟩ (by decide)
     ⟨0, ["b.js"]⟩ rfl).2.1⟩

/-- C5: for the three-file chain `a.js → b.js → c.js` built with
`maxDepth = 1` from entry `a.js`, the nodes are exactly `a.js` and
`b.js` (`c.js` is never scanned) while the edges are exactly
`a.js → b.js` and `b.js → c.js`: the edge to the unexpanded neighbour is
recorded even though the neighbour is not enqueued. -/
theorem C5_theorem :
    buildGraph fsChain ["a.js"] optsD1 = .ok
      ⟨[⟨⟨0, ["a.js"]⟩, .javascript, 1⟩, ⟨⟨0, ["b.js"]⟩, .javascript, 1⟩],
       [⟨⟨0, ["a.js"]⟩, .localPath ⟨0, ["b.js"]⟩, "./b", .localDep⟩,
        ⟨⟨0, ["b.js"]⟩, .localPath ⟨0, ["c.js"]⟩, "./c", .localDep⟩],
       [], [], []⟩ := rfl

/-- C6 refutation: JavaScript classification is not exactly the
priority rule the claim states — `node:path` is classified builtin by
the code (any `node:` prefix is builtin), while the claim's rule, whose
leading-segment lookup finds no `node:path` in the enumerated list,
would make it external. -/
theorem C6_counterexample :
    classifyJs "node:path" = .builtinDep ∧
    classifyJsClaimRule "node:path" = .externalDep := by decide

/-- C6 (amended): Python classification is exactly the claim's priority
rule; JavaScript classification is the claim's rule extended with one
extra case — any specifier with the `node:` prefix is builtin even when
absent from the enumerated list; and scoped `@.../...` names are always
external. -/
theorem C6_theorem :
    (∀ s : String, classifyJs s = classifyJsAmended s) ∧
    (∀ s : String, classifyPy s = classifyPyClaimRule s) ∧
    (∀ rest : String, classifyJs ("@" ++ rest) = .externalDep) := by
  refine ⟨fun s => ?_, fun s => rfl, fun rest => ?_⟩
  · unfold classifyJs classifyJsAmended isNodeBuiltin
    cases h : startsWithStr s "node:" <;> simp [h]
  · have h : ("@" ++ rest) = String.mk ('@' :: rest.toList) := rfl
    rw [h]
    exact classifyJs_scoped rest.toList

/-- C7: `resolveLocal` coincides, for all inputs, with the
specification's three-stage description: the exact resolved target if a
regular file is there, else the target with each recognised extension of
the originating file's language appended in the fixed order, else — if
the target is an existing directory — the first existing `index.<ext>`,
else the unresolved marker.  (The code's `existsSync(p) && isFile(p)`
guard is equivalent to the specification's plain regular-file check.) -/
theorem C7_theorem (fs : FS) (specifier : String) (fromFile rootDir : Path) :
    resolveLocal fs specifier fromFile rootDir =
      resolveLocalSpec fs specifier fromFile rootDir := by
  have hfd : ∀ p : Path, (existsSync fs p && isFile fs p) = isFile fs p := by
    intro p
    cases hf : isFile fs p
    · simp
    · simp [existsSync, hf]
  have hdd : ∀ p : Path, (existsSync fs p && isDir fs p) = isDir fs p := by
    intro p
    cases hd : isDir fs p
    · simp
    · simp [existsSync, hd]
  unfold resolveLocal resolveLocalSpec
  simp only [hfd, hdd]

/-- C8: in every build with a well-formed root, each scanned file (each
node) whose source contains a local-classified specifier that fails to
resolve contributes exactly one unresolved record `(file, specifier)`
and no edge with that source and specifier; an unresolved specifier also
never contributes a queue push.  On the concrete `./missing` scenario
the whole graph is one node, no edges, and exactly the one unresolved
record. -/
theorem C8_theorem (ctx : Ctx) (entries : List String)
    (hroot : ValidPath ctx.opts.rootDir) :
    (∀ n ∈ (buildState ctx entries).nodes, ∃ src,
      lookupFile ctx.fs (pathResolveRel ctx.opts.rootDir n.path) = some src ∧
      ∀ dep ∈ parseFor n.language src,
        classifyFor n.language dep = .localDep →
        resolveLocal ctx.fs dep (pathResolveRel ctx.opts.rootDir n.path)
          ctx.opts.rootDir = none →
        ((buildState ctx entries).unresolved.filter
          (fun u => u.frm = n.path && u.specifier = dep)).length = 1 ∧
        ∀ e ∈ (buildState ctx entries).edges,
          ¬(e.frm = n.path ∧ e.specifier = dep)) ∧
    (∀ (lang : Lang) (it : QItem) (dep : String),
      classifyFor lang dep = .localDep →
      resolveLocal ctx.fs dep it.file ctx.opts.rootDir = none →
      depPushOf ctx lang it dep = none) ∧
    buildGraph fsMiss ["i.js"] optsP = .ok
      ⟨[⟨⟨0, ["i.js"]⟩, .javascript, 1⟩], [], [], [],
       [⟨⟨0, ["i.js"]⟩, "./missing"⟩]⟩ := by
  have hinv := Inv_buildState ctx hroot entries
  refine ⟨?_, fun lang it dep hcl hres =>
    depPushOf_none_of_unresolved ctx lang it dep hcl hres, rfl⟩
  intro n hn
  obtain ⟨src, h1, _, _, h4⟩ := hinv.nodeData n hn
  exact ⟨src, h1, fun dep hdep hcl hres => h4 dep hdep hcl hres⟩

theorem C8_witness :
    ValidPath ctxMiss.opts.rootDir ∧
    depPushOf ctxMiss .javascript ⟨["p", "i.js"], 0⟩ "./missing" = none :=
  ⟨by decide,
   (C8_theorem ctxMiss ["i.js"] (by decide)).2.1 .javascript ⟨["p", "i.js"], 0⟩
     "./missing" (by decide) (by decide)⟩

/-- C9: both scanners are total functions — every input string yields a
result list (the source's scanning loops are modelled by structurally
terminating functions, so no input can make them diverge or throw) — and
malformed inputs degrade to empty extraction rather than an error: an
unterminated brace import, an unterminated require string, a `from`
line without a module, and a bare `import` all yield `[]`. -/
theorem C9_theorem :
    (∀ src : String, ∃ js py : List String, parseJs src = js ∧ parsePy src = py) ∧
    parseJs "import \x7b broken" = [] ∧
    parseJs "const x = require('unclosed" = [] ∧
    parsePy "from  " = [] ∧
    parsePy "import" = [] := by
  refine ⟨fun src => ⟨parseJs src, parsePy src, rfl, rfl⟩, ?_, ?_, ?_, ?_⟩ <;> decide

/-- C10: `buildGraph` on an empty entries list returns, for every
filesystem and options, the `ok` graph with all five components
empty — the loop never runs, no error is thrown. -/
theorem C10_theorem (fs : FS) (opts : BuildOpts) :
    buildGraph fs [] opts = .ok ⟨[], [], [], [], []⟩ := by
  have hbs : buildState ⟨fs, opts⟩ [] = initSt opts.rootDir [] := by
    unfold buildState
    exact runFuel_stop _ _ _ rfl
  unfold buildGraph
  rw [hbs]
  rfl

end DepTree
